import Mathlib

/-!
Verification of the boundary-tag allocator in mm.c (repository rektyyy/malloc).

The heap is modelled shallowly: memory is a total map from byte addresses to
the 4-byte word stored at that (4-aligned) address, and the file-scope
globals of mm.c (heap_start, heap_end, last, list_start, list_end) form a
State record.  Pointers are natural numbers; the null pointer is 0.  The C
flag operations on a header word v (bit 0 = USED, bit 1 = PREVFREE) are
rendered arithmetically: v & ~(USED|PREVFREE) is v - v % 4, v & USED is
v % 2, v & PREVFREE is v % 4 - v % 2; where the source writes a bitwise or
we keep Nat.lor.  The sbrk-style provider (memlib.c, outside src/) is
modelled from the spec, section 6.1: an oracle boolean says whether the
provider grants the extension, and on success the new bytes begin at the
previous heap_end.  Loops over the free list carry explicit fuel; a result
of none means the fuel ran out, which cannot happen on well-formed lists.
-/

namespace MM

/-- Block is free (bt_flags FREE in mm.c). -/
def FREE : Nat := 0

/-- Block is used (bt_flags USED in mm.c). -/
def USED : Nat := 1

/-- Previous block is free, optimized boundary tag (bt_flags PREVFREE). -/
def PREVFREE : Nat := 2

/-- Modelled from the spec: ALIGNMENT comes from the header mm.h, which is
not under src/; spec section 3.1 fixes the alignment A = 16 bytes. -/
def ALIGNMENT : Nat := 16

/-- The fixed high region of heap addresses, 0x800000000, used by the
free-list link encoding in mm.c (ptr_address / ptr_size). -/
def BASE : Nat := 0x800000000

/-- The file-scope mutable state of mm.c: the word at each 4-aligned byte
address, plus the five globals heap_start, heap_end, last, list_start and
list_end.  Null pointers are the address 0. -/
structure State where
  mem : Nat → Nat
  heap_start : Nat
  heap_end : Nat
  last : Nat
  list_start : Nat
  list_end : Nat

/-- Store the word v at address a. -/
def write (s : State) (a v : Nat) : State :=
  { s with mem := fun x => if x = a then v else s.mem x }

/-- bt_size: the header word with the flag bits masked off
(*bt & ~(USED | PREVFREE), i.e. the low two bits cleared). -/
def bt_size (s : State) (bt : Nat) : Nat :=
  s.mem bt - s.mem bt % 4

/-- bt_used: the USED bit of the header is set. -/
def bt_used (s : State) (bt : Nat) : Prop :=
  s.mem bt % 2 = 1

/-- bt_free: the USED bit of the header is clear (!(*bt & USED)). -/
def bt_free (s : State) (bt : Nat) : Prop :=
  s.mem bt % 2 = 0

instance (s : State) (bt : Nat) : Decidable (bt_free s bt) := by
  unfold bt_free; infer_instance

/-- bt_footer: address of the footer word of the block at bt
((void *)bt + bt_size(bt) - sizeof(word_t)). -/
def bt_footer (s : State) (bt : Nat) : Nat :=
  bt + bt_size s bt - 4

/-- bt_fromptr: boundary tag address from payload pointer ((word_t *)ptr - 1). -/
def bt_fromptr (ptr : Nat) : Nat :=
  ptr - 4

/-- bt_get_prevfree: the PREVFREE bit of the header, masked (*bt & PREVFREE),
so the result is 0 or 2. -/
def bt_get_prevfree (s : State) (bt : Nat) : Nat :=
  s.mem bt % 4 - s.mem bt % 2

/-- bt_clr_prevfree: clear the PREVFREE bit (if (bt) *bt &= ~PREVFREE). -/
def bt_clr_prevfree (s : State) (bt : Nat) : State :=
  if bt ≠ 0 then write s bt (s.mem bt - (s.mem bt % 4 - s.mem bt % 2)) else s

/-- bt_set_prevfree: set the PREVFREE bit (*bt |= PREVFREE). -/
def bt_set_prevfree (s : State) (bt : Nat) : State :=
  write s bt (s.mem bt ||| PREVFREE)

/-- bt_payload: address of the payload (bt + 1 in word pointers). -/
def bt_payload (bt : Nat) : Nat :=
  bt + 4

/-- bt_next: address of the physically next block, or null when it would
pass heap_end. -/
def bt_next (s : State) (bt : Nat) : Nat :=
  let ptr := bt + bt_size s bt
  if ptr ≤ s.heap_end then ptr else 0

/-- bt_prev: address of the physically previous block, read through the
footer word just below bt, or null when it would fall below heap_start. -/
def bt_prev (s : State) (bt : Nat) : Nat :=
  let ptr := bt - bt_size s (bt - 4)
  if s.heap_start ≤ ptr then ptr else 0

/-- bt_make: write the boundary tag(s) for a block: the header, and, when
the block is free, the footer and the successor's PREVFREE bit; for a used
block the successor's PREVFREE bit is cleared. -/
def bt_make (s : State) (bt size flags : Nat) : State :=
  let s1 := write s bt (size ||| flags)
  let s2 := bt_clr_prevfree s1 (bt_next s1 bt)
  if bt_free s2 bt then
    let s3 := write s2 (bt_footer s2 bt) (size ||| flags)
    bt_set_prevfree s3 (bt_next s3 bt)
  else s2

/-- ptr_address: reconstruct a free-list link address from a stored offset
((word_t *)(0x800000000 | toadd)). -/
def ptr_address (toadd : Nat) : Nat :=
  BASE ||| toadd

/-- ptr_size: the stored offset of a free-list link address
((unsigned long)bt - 0x800000000). -/
def ptr_size (bt : Nat) : Nat :=
  bt - BASE

/-- ptr_next: address of the next free block in the list (link word at
bt + 1 word). -/
def ptr_next (s : State) (bt : Nat) : Nat :=
  ptr_address (s.mem (bt + 4))

/-- ptr_prev: address of the previous free block in the list (link word at
bt + 2 words). -/
def ptr_prev (s : State) (bt : Nat) : Nat :=
  ptr_address (s.mem (bt + 8))

/-- list_set_prev: store the prev link of a free block. -/
def list_set_prev (s : State) (block val : Nat) : State :=
  write s (block + 8) (ptr_size val)

/-- list_set_next: store the next link of a free block. -/
def list_set_next (s : State) (block val : Nat) : State :=
  write s (block + 4) (ptr_size val)

/-- list_clr_prev: null the prev link of a free block. -/
def list_clr_prev (s : State) (block : Nat) : State :=
  write s (block + 8) 0

/-- list_clr_next: null the next link of a free block. -/
def list_clr_next (s : State) (block : Nat) : State :=
  write s (block + 4) 0

/-- list_add: push a free block at the head of the explicit free list. -/
def list_add (s : State) (block : Nat) : State :=
  if s.list_start = 0 then
    let s1 := { s with list_start := block, list_end := block }
    let s2 := list_clr_next s1 s1.list_start
    list_clr_prev s2 s2.list_end
  else
    let s1 := list_set_next s block s.list_start
    let s2 := list_set_prev s1 s1.list_start block
    let s3 := list_clr_prev s2 block
    { s3 with list_start := block }

/-- list_remove: unlink a free block; four cases (sole element, head, tail,
middle) exactly as in mm.c. -/
def list_remove (s : State) (block : Nat) : State :=
  if s.list_start = block ∧ s.list_end = block then
    { s with list_start := 0, list_end := 0 }
  else if s.list_start = block then
    let s1 := { s with list_start := ptr_next s s.list_start }
    list_clr_prev s1 s1.list_start
  else if s.list_end = block then
    let s1 := { s with list_end := ptr_prev s s.list_end }
    list_clr_next s1 s1.list_end
  else
    let prev := ptr_prev s block
    let next := ptr_next s block
    let s1 := list_set_next s prev next
    list_set_prev s1 next prev

/-- round_up: (size + ALIGNMENT - 1) & -ALIGNMENT on a 64-bit size_t; the
mask clears the low four bits, and the addition wraps modulo 2 to the 64. -/
def round_up (size : Nat) : Nat :=
  let t := (size + ALIGNMENT - 1) % 2 ^ 64
  t - t % ALIGNMENT

/-- blksz: block size including the header word, aligned to ALIGNMENT. -/
def blksz (size : Nat) : Nat :=
  round_up (size + 4)

/-- morecore: ask the provider (modelled from the spec, section 6.1, by the
oracle ok) for size more bytes; mm.c moves heap_end and relocates the
epilogue word before checking the provider's answer, and returns the old
heap_end on success and null on failure. -/
def morecore (s : State) (ok : Bool) (size : Nat) : State × Nat :=
  let s1 := { s with last := s.heap_end }
  let epilogue := s1.mem s1.heap_end
  let s2 := { s1 with heap_end := s1.heap_end + size }
  let s3 := write s2 s2.heap_end epilogue
  if ok then (s3, s3.last) else (s3, 0)

/-- mm_init: the provider hands 8 words at address ptr (modelled from the
spec, section 6.1); mm.c builds the 16-byte prologue at ptr + 12, points
heap_start and heap_end at ptr + 28, writes the USED epilogue word there
and empties the free list. -/
def mm_init (s : State) (ptr : Nat) : State × Int :=
  if ptr = 0 then (s, -1)
  else
    let s1 := bt_make s (ptr + 12) 16 USED
    let s2 := { s1 with heap_start := ptr + 28, heap_end := ptr + 28 }
    let s3 := write s2 s2.heap_end USED
    let s4 := { s3 with list_start := 0, list_end := 0, last := 0 }
    (s4, 0)

/-- coalesce: join the block bt, which has just been marked free, with its
free physical neighbors, per the four cases of mm.c, and return the merged
block. -/
def coalesce (s : State) (bt : Nat) : State × Nat :=
  let prev := bt_prev s bt
  let next := bt_next s bt
  let nextcheck := bt_free s next
  let prevcheck := bt_get_prevfree s bt ≠ 0
  if ¬prevcheck ∧ ¬nextcheck then
    (list_add s bt, bt)
  else if ¬prevcheck ∧ nextcheck then
    let s1 := list_remove s next
    let s2 := bt_make s1 bt (bt_size s1 bt + bt_size s1 next) FREE
    (list_add s2 bt, bt)
  else if prevcheck ∧ ¬nextcheck then
    let s1 := list_remove s prev
    let s2 := bt_make s1 prev (bt_size s1 prev + bt_size s1 bt) FREE
    (list_add s2 prev, prev)
  else
    let s1 := list_remove s prev
    let s2 := bt_make s1 prev (bt_size s1 prev + bt_size s1 bt + bt_size s1 next) FREE
    let s3 := list_add s2 prev
    (list_remove s3 next, prev)

/-- Body of the best-fit loop of find_fit in mm.c: walk the list from ptr
until the sentinel 0x800000000, keeping the first smallest block whose size
is at least reqsz in best (null when none seen yet).  The fuel bounds the
number of iterations; none means it ran out. -/
def find_fit_go (s : State) (reqsz : Nat) : Nat → Nat → Nat → Option Nat
  | _, _, 0 => none
  | ptr, best, fuel + 1 =>
    if ptr = BASE then some best
    else
      let ptrsize := bt_size s ptr
      let best1 :=
        if reqsz ≤ ptrsize then
          if best = 0 ∨ ptrsize < bt_size s best then ptr else best
        else best
      find_fit_go s reqsz (ptr_next s ptr) best1 fuel

/-- find_fit: best-fit search over the explicit free list (mm.c returns
null at once when the list is empty). -/
def find_fit (s : State) (reqsz fuel : Nat) : Option Nat :=
  if s.list_start = 0 then some 0
  else find_fit_go s reqsz s.list_start 0 fuel

/-- malloc: translate the request into an aligned block size, best-fit
search, then split the found block or consume it whole, or else extend the
heap; mm.c returns bt_payload(ptr) on every path, without a null check on
the morecore result. -/
def malloc (s : State) (ok : Bool) (fuel size : Nat) : Option (State × Nat) :=
  let asize := blksz size
  match find_fit s asize fuel with
  | none => none
  | some ptr =>
    if ptr ≠ 0 then
      let blksize := bt_size s ptr
      if 16 ≤ blksize - asize then
        let s1 := bt_make s ptr asize (USED ||| bt_get_prevfree s ptr)
        let next := bt_next s1 ptr
        let s2 := bt_make s1 next (blksize - asize) FREE
        let s3 := list_remove s2 ptr
        let s4 := (coalesce s3 next).1
        some (s4, bt_payload ptr)
      else
        let s1 := bt_make s ptr blksize (USED ||| bt_get_prevfree s ptr)
        let s2 := list_remove s1 ptr
        some (s2, bt_payload ptr)
    else
      let r := morecore s ok asize
      let s1 := r.1
      let ptr1 := r.2
      let s2 := bt_make s1 ptr1 asize (USED ||| bt_get_prevfree s1 ptr1)
      some (s2, bt_payload ptr1)

/-- free: mark the block free, preserving its PREVFREE bit, and coalesce. -/
def free (s : State) (ptr : Nat) : State :=
  if ptr ≠ 0 then
    let block := bt_fromptr ptr
    let s1 := bt_make s block (bt_size s block) (FREE ||| bt_get_prevfree s block)
    (coalesce s1 block).1
  else s

/-- Forward word-by-word copy of k words from src to dst. -/
def copyWords (s : State) (dst src : Nat) : Nat → State
  | 0 => s
  | k + 1 => copyWords (write s dst (s.mem src)) (dst + 4) (src + 4) k

/-- memcpy(dst, src, len) rendered at word granularity on the word-indexed
memory (every pointer handed to memcpy by mm.c is 4-aligned): copy the
len / 4 whole words forward, then splice the remaining len % 4 bytes of the
next word, words being little-endian.  The C call is the libc memcpy, whose
behavior on overlapping ranges is undefined; this model fixes the forward
order. -/
def memcpy (s : State) (dst src len : Nat) : State :=
  let s1 := copyWords s dst src (len / 4)
  let r := len % 4
  if r = 0 then s1
  else
    let d := dst + 4 * (len / 4)
    let sr := src + 4 * (len / 4)
    write s1 d (s1.mem sr % 256 ^ r + (s1.mem d - s1.mem d % 256 ^ r))

/-- Zero k words forward from dst. -/
def zeroWords (s : State) (dst : Nat) : Nat → State
  | 0 => s
  | k + 1 => zeroWords (write s dst 0) (dst + 4) k

/-- memset(dst, 0, len) rendered at word granularity, as for memcpy. -/
def memset0 (s : State) (dst len : Nat) : State :=
  let s1 := zeroWords s dst (len / 4)
  let r := len % 4
  if r = 0 then s1
  else
    let d := dst + 4 * (len / 4)
    write s1 d (s1.mem d - s1.mem d % 256 ^ r)

/-- One memcpy call performed by realloc: destination, source, length in
bytes, recorded in call order. -/
structure CopyEvent where
  dst : Nat
  src : Nat
  len : Nat
  deriving DecidableEq, Repr

/-- realloc: null pointer means malloc, zero size means free; otherwise
shrink in place, grow at the trailing edge of the heap, grow into both
neighbors, into the left neighbor, into the right neighbor, and finally
the malloc-copy-free fallback, exactly in mm.c's order and with mm.c's
state at each read.  The returned list records the memcpy calls made. -/
def realloc (s : State) (ok : Bool) (fuel old_ptr size : Nat) :
    Option (State × Nat × List CopyEvent) :=
  if old_ptr = 0 then
    (malloc s ok fuel size).map (fun r => (r.1, r.2, []))
  else if size = 0 then
    some (free s old_ptr, 0, [])
  else
    let block := bt_fromptr old_ptr
    let blocksize := bt_size s block
    let asize := blksz size
    if asize ≤ blocksize then
      let rest := blocksize - asize
      if 16 ≤ rest then
        let s1 := bt_make s block asize (USED ||| bt_get_prevfree s block)
        let s2 := bt_make s1 (bt_next s1 block) rest FREE
        let s3 := (coalesce s2 (bt_next s2 block)).1
        some (s3, old_ptr, [])
      else some (s, old_ptr, [])
    else
      let next := bt_next s block
      if next = s.heap_end then
        let s1 := (morecore s ok (asize - blocksize)).1
        let s2 := bt_make s1 block asize (USED ||| bt_get_prevfree s1 block)
        some (s2, old_ptr, [])
      else
        let tryboth : Option (State × Nat × List CopyEvent) :=
          if bt_get_prevfree s block ≠ 0 ∧ bt_free s next then
            let prev := bt_prev s block
            let withboth := bt_size s prev + blocksize + bt_size s next
            if asize ≤ withboth then
              let s1 := list_remove s next
              let s2 := list_remove s1 prev
              let s3 := memcpy s2 (bt_payload prev) old_ptr size
              if 16 ≤ withboth - asize then
                let s4 := bt_make s3 prev asize USED
                let freeblock := bt_next s4 prev
                let s5 := bt_make s4 freeblock (withboth - asize) FREE
                let s6 := (coalesce s5 freeblock).1
                some (s6, bt_payload prev, [⟨bt_payload prev, old_ptr, size⟩])
              else
                let s4 := bt_make s3 prev withboth USED
                some (s4, bt_payload prev, [⟨bt_payload prev, old_ptr, size⟩])
            else none
          else none
        match tryboth with
        | some r => some r
        | none =>
          let tryleft : Option (State × Nat × List CopyEvent) :=
            if bt_get_prevfree s block ≠ 0 then
              let prev := bt_prev s block
              let withprev := blocksize + bt_size s prev
              if asize ≤ withprev then
                let s1 := list_remove s prev
                let s2 := memcpy s1 (bt_payload prev) old_ptr size
                if 16 ≤ withprev - asize then
                  let s3 := bt_make s2 prev asize (USED ||| bt_get_prevfree s2 block)
                  let prevnext := bt_next s3 prev
                  let s4 := bt_make s3 prevnext (withprev - asize) FREE
                  let s5 := (coalesce s4 prevnext).1
                  some (s5, bt_payload prev, [⟨bt_payload prev, old_ptr, size⟩])
                else
                  let s3 := bt_make s2 prev withprev (USED ||| bt_get_prevfree s2 block)
                  some (s3, bt_payload prev, [⟨bt_payload prev, old_ptr, size⟩])
              else none
            else none
          match tryleft with
          | some r => some r
          | none =>
            let tryright : Option (State × Nat × List CopyEvent) :=
              if bt_free s next then
                let withnext := blocksize + bt_size s next
                if asize ≤ withnext then
                  let s1 := list_remove s next
                  if 16 ≤ withnext - asize then
                    let s2 := bt_make s1 block asize (USED ||| bt_get_prevfree s1 block)
                    let new := bt_next s2 block
                    let s3 := bt_make s2 new (withnext - asize) FREE
                    let s4 := (coalesce s3 new).1
                    some (s4, old_ptr, [])
                  else
                    let s2 := bt_make s1 block withnext (USED ||| bt_get_prevfree s1 block)
                    some (s2, old_ptr, [])
                else none
              else none
            match tryright with
            | some r => some r
            | none =>
              match malloc s ok fuel size with
              | none => none
              | some (s1, new_ptr) =>
                let s2 := memcpy s1 new_ptr old_ptr size
                let s3 := free s2 old_ptr
                some (s3, new_ptr, [⟨new_ptr, old_ptr, size⟩])

/-- calloc: nmemb * size with the size_t wraparound of the C product (no
overflow check in mm.c), malloc, and zero the bytes on success. -/
def calloc (s : State) (ok : Bool) (fuel nmemb size : Nat) :
    Option (State × Nat) :=
  let bytes := nmemb * size % 2 ^ 64
  match malloc s ok fuel bytes with
  | none => none
  | some (s1, new_ptr) =>
    if new_ptr ≠ 0 then some (memset0 s1 new_ptr bytes, new_ptr)
    else some (s1, new_ptr)

/-! ## Spec-side predicates: the heap layout and the invariants I1 - I5 -/

/-- The PREVFREE bit of the word at b, as a bit (0 or 1). -/
def pfbit (s : State) (b : Nat) : Nat :=
  s.mem b / 2 % 2

/-- chainSeg s a e l: the blocks listed in l tile the address range from a
to e, each block satisfying I4 (size at least 16 and divisible by 16). -/
def chainSeg (s : State) : Nat → Nat → List Nat → Prop
  | a, e, [] => a = e
  | a, e, b :: rest =>
    b = a ∧ 16 ≤ bt_size s a ∧ bt_size s a % 16 = 0 ∧
      chainSeg s (a + bt_size s a) e rest

/-- The physical block sequence of the whole managed heap (P1/I4). -/
def chainBlocks (s : State) (blks : List Nat) : Prop :=
  chainSeg s s.heap_start s.heap_end blks

/-- I2: the PREVFREE bit of every block header, and of the epilogue word at
heap_end, records whether the physically preceding block is free; pv is the
bit owed to the first listed block. -/
def pfOk (s : State) : Nat → List Nat → Prop
  | pv, [] => pfbit s s.heap_end = pv
  | pv, b :: rest =>
    pfbit s b = pv ∧ pfOk s (if s.mem b % 2 = 0 then 1 else 0) rest

/-- I1: every free block's footer word duplicates its header word. -/
def footersOk (s : State) (blks : List Nat) : Prop :=
  ∀ b ∈ blks, bt_free s b → s.mem (b + bt_size s b - 4) = s.mem b

/-- I3 / P4: no two physically adjacent blocks are both free. -/
def noAdjFree (s : State) (blks : List Nat) : Prop :=
  List.Chain' (fun x y => ¬(bt_free s x ∧ bt_free s y)) blks

/-- I3 relaxed at a block B that has just been marked free and not yet
coalesced: only pairs involving B may be both free. -/
def noAdjFreeExcept (s : State) (B : Nat) (blks : List Nat) : Prop :=
  List.Chain' (fun x y => x = B ∨ y = B ∨ ¬(bt_free s x ∧ bt_free s y)) blks

/-- The stored link offset of a heap address: its distance from BASE, as
ptr_size computes it.  (Kept behind its own name so that proofs treat it as
an opaque value rather than unfolding the subtraction.) -/
def off (a : Nat) : Nat :=
  a - BASE

/-- The stored next-link offset owed to a list cell whose successors are
rest: the boundary offset nxt at the tail, else the successor's offset. -/
def nextOff (nxt : Nat) : List Nat → Nat
  | [] => nxt
  | b :: _ => off b

/-- listSeg s pv l nxt: the doubly-linked chain threaded through the
payloads of the cells of l, whose first cell owes prev-link word pv and
whose last cell owes next-link word nxt. -/
def listSeg (s : State) : Nat → List Nat → Nat → Prop
  | _, [], _ => True
  | pv, a :: rest, nxt =>
    s.mem (a + 8) = pv ∧ s.mem (a + 4) = nextOff nxt rest ∧
      listSeg s (off a) rest nxt

/-- The prev-link word owed by the cell after the listed ones, when the
cell before them owed pv: the offset of the last listed cell. -/
def pvAfter (pv : Nat) (l : List Nat) : Nat :=
  match l.getLast? with
  | none => pv
  | some p => off p

/-- I5, list shape: lst spells out the explicit free list from list_start
to list_end, cells pairwise at least 16 bytes apart, with addresses in the
encodable range above BASE. -/
def listRep (s : State) (lst : List Nat) : Prop :=
  List.Pairwise (fun x y => x + 16 ≤ y ∨ y + 16 ≤ x) lst ∧
    (∀ a ∈ lst, BASE < a ∧ a < BASE + 2 ^ 31) ∧
    (lst = [] → s.list_start = 0 ∧ s.list_end = 0) ∧
    (∀ a rest, lst = a :: rest →
      s.list_start = a ∧ lst.getLast? = some s.list_end) ∧
    listSeg s 0 lst 0

/-- The expected PREVFREE bit flowing out of a run of blocks whose first
block owes bit pv (the segment version of pfOk, anchored by out instead of
the epilogue). -/
def pfSeg (s : State) : Nat → List Nat → Nat → Prop
  | pv, [], out => pv = out
  | pv, b :: rest, out =>
    pfbit s b = pv ∧ pfSeg s (if s.mem b % 2 = 0 then 1 else 0) rest out

/-- The chain of next links walked by find_fit, ending at the sentinel
0x800000000. -/
def nextChain (s : State) : Nat → List Nat → Prop
  | p, [] => p = BASE
  | p, a :: rest => p = a ∧ nextChain s (ptr_next s a) rest

/-- The invariants I1 - I5 of the spec, packaged over the physical block
sequence blks and the free-list sequence lst, together with the
well-formedness of the bounds and of the epilogue word. -/
structure HeapInv (s : State) (blks lst : List Nat) : Prop where
  hs_base : BASE < s.heap_start
  he_range : s.heap_end ≤ BASE + 2 ^ 31
  layout : chainBlocks s blks
  epi_used : s.mem s.heap_end % 2 = 1
  pf : pfOk s 0 blks
  foot : footersOk s blks
  noadj : noAdjFree s blks
  rep : listRep s lst
  memEq : ∀ b, b ∈ lst ↔ b ∈ blks ∧ bt_free s b

/-- The precondition of coalesce: the heap satisfies I1 - I5 except that
the block B has just been marked FREE (its tags are written, it is not yet
in the free list, and only pairs at B may break I3). -/
structure JustFreed (s : State) (blks lst : List Nat) (B : Nat) : Prop where
  hs_base : BASE < s.heap_start
  he_range : s.heap_end ≤ BASE + 2 ^ 31
  layout : chainBlocks s blks
  epi_used : s.mem s.heap_end % 2 = 1
  pf : pfOk s 0 blks
  foot : footersOk s blks
  noadj : noAdjFreeExcept s B blks
  rep : listRep s lst
  bmem : B ∈ blks
  bfree : bt_free s B
  memEq : ∀ b, b ∈ lst ↔ b ∈ blks ∧ bt_free s b ∧ b ≠ B

/-- The value of the find_fit loop accumulator after scanning the listed
cells, starting from best (0 = none yet): at each cell, a fitting block
strictly smaller than the current best (or any fitting block when none is
held) replaces the accumulator. -/
def find_fit_acc (s : State) (reqsz : Nat) : List Nat → Nat → Nat
  | [], best => best
  | a :: rest, best =>
    find_fit_acc s reqsz rest
      (if reqsz ≤ bt_size s a then
        if best = 0 ∨ bt_size s a < bt_size s best then a else best
      else best)

/-- The best-fit postcondition of spec section 4.3 for a search over the
free list lst with request reqsz and result r: r is null exactly when no
listed block fits; otherwise r is a listed block that fits, no listed
fitting block is smaller, and every fitting block listed before r is
strictly larger (first-encountered tie-break). -/
def bestFitResult (s : State) (reqsz : Nat) (lst : List Nat) (r : Nat) : Prop :=
  (r = 0 ∧ ∀ x ∈ lst, bt_size s x < reqsz) ∨
  (r ≠ 0 ∧ reqsz ≤ bt_size s r ∧
    (∀ x ∈ lst, reqsz ≤ bt_size s x → bt_size s r ≤ bt_size s x) ∧
    ∃ l1 l2, lst = l1 ++ r :: l2 ∧
      ∀ x ∈ l1, reqsz ≤ bt_size s x → bt_size s r < bt_size s x)

/-- The accumulator keeps its held best over lst: nothing listed and
fitting is smaller. -/
def accKeeps (s : State) (reqsz : Nat) (lst : List Nat) (best r : Nat) : Prop :=
  r = best ∧ ∀ x ∈ lst, reqsz ≤ bt_size s x → bt_size s best ≤ bt_size s x

/-- The accumulator is improved by a listed block r below the size bound,
minimal among the listed fitting blocks and first among its ties. -/
def accImproves (s : State) (reqsz : Nat) (lst : List Nat) (bound r : Nat) : Prop :=
  r ≠ 0 ∧ reqsz ≤ bt_size s r ∧ bt_size s r < bound ∧
  (∀ x ∈ lst, reqsz ≤ bt_size s x → bt_size s r ≤ bt_size s x) ∧
  ∃ l1 l2, lst = l1 ++ r :: l2 ∧
    ∀ x ∈ l1, reqsz ≤ bt_size s x → bt_size s r < bt_size s x

/-! ## Concrete heap states used as witnesses and counterexamples -/

/-- A freshly initialized heap: empty block range at BASE + 28, USED
epilogue word there, empty free list (the state mm_init builds when the
provider returns BASE). -/
def fresh_heap : State :=
  { mem := fun a => if a = BASE + 28 then 1 else 0
    heap_start := BASE + 28
    heap_end := BASE + 28
    last := 0
    list_start := 0
    list_end := 0 }

/-- A heap with a single USED 16-byte block at BASE + 28 (header 17) and
the epilogue at BASE + 44. -/
def one_used_block_heap : State :=
  { mem := fun a => if a = BASE + 28 then 17 else if a = BASE + 44 then 1 else 0
    heap_start := BASE + 28
    heap_end := BASE + 44
    last := 0
    list_start := 0
    list_end := 0 }

/-- A heap laid out FREE(16) at BASE + 28, USED(32, PREVFREE) at BASE + 44,
USED(16) at BASE + 76, epilogue at BASE + 92; the free list holds exactly
the first block.  This drives realloc into its grow-into-left branch. -/
def left_grow_heap : State :=
  { mem := fun a =>
      if a = BASE + 28 then 16
      else if a = BASE + 40 then 16
      else if a = BASE + 44 then 35
      else if a = BASE + 76 then 17
      else if a = BASE + 92 then 1
      else 0
    heap_start := BASE + 28
    heap_end := BASE + 92
    last := 0
    list_start := BASE + 28
    list_end := BASE + 28 }

/-- A minimal state for exercising bt_make alone: zeroed memory with room
up to address 100. -/
def tiny_heap : State :=
  { mem := fun _ => 0
    heap_start := 0
    heap_end := 100
    last := 0
    list_start := 0
    list_end := 0 }

/-- A state whose every word reads 17 (a 16-byte USED block wherever one
looks); realloc's in-place shrink path never writes, so any block works. -/
def junk_heap : State :=
  { mem := fun _ => 17
    heap_start := 0
    heap_end := 0
    last := 0
    list_start := 0
    list_end := 0 }

/-- A heap with three FREE blocks at BASE + 28 (size 48), BASE + 76
(size 32), BASE + 108 (size 32), separated by USED blocks, the free list
linking them in this order; used to exercise the best-fit search, with a
tie between the two 32-byte blocks.  Headers carry PREVFREE on the blocks
after a free one; link words hold offsets from BASE. -/
def best_fit_heap : State :=
  { mem := fun a =>
      if a = BASE + 28 then 48
      else if a = BASE + 32 then 76
      else if a = BASE + 36 then 0
      else if a = BASE + 72 then 48
      else if a = BASE + 76 then 32
      else if a = BASE + 80 then 108
      else if a = BASE + 84 then 28
      else if a = BASE + 104 then 32
      else if a = BASE + 108 then 32
      else if a = BASE + 112 then 0
      else if a = BASE + 116 then 76
      else if a = BASE + 136 then 32
      else 0
    heap_start := BASE + 28
    heap_end := BASE + 140
    last := 0
    list_start := BASE + 28
    list_end := BASE + 108 }

/-- A heap with one USED 16-byte block at BASE + 28 followed by one FREE
16-byte block at BASE + 44 that has just been marked free and is not yet
in the (empty) free list; epilogue at BASE + 60 carries PREVFREE. -/
def just_freed_heap : State :=
  { mem := fun a =>
      if a = BASE + 28 then 17
      else if a = BASE + 44 then 16
      else if a = BASE + 56 then 16
      else if a = BASE + 60 then 3
      else 0
    heap_start := BASE + 28
    heap_end := BASE + 60
    last := 0
    list_start := 0
    list_end := 0 }

/-! ## Word algebra -/

/-- The stored offset of an address is its distance from BASE. -/
theorem off_def (a : Nat) : off a = a - BASE := rfl

attribute [irreducible] off

/-- ptr_size computes exactly the stored offset. -/
theorem ptr_size_off (a : Nat) : ptr_size a = off a := by
  rw [off_def]
  rfl

/-- A bitwise or of disjoint fields is an addition. -/
theorem lor_eq_add (k : Nat) {a b : Nat} (ha : a % 2 ^ k = 0) (hb : b < 2 ^ k) :
    a ||| b = a + b := by
  have hd : 2 ^ k * (a / 2 ^ k) = a := Nat.mul_div_cancel' (Nat.dvd_of_mod_eq_zero ha)
  calc a ||| b = 2 ^ k * (a / 2 ^ k) ||| b := by rw [hd]
    _ = 2 ^ k * (a / 2 ^ k) + b := (Nat.mul_add_lt_is_or hb _).symm
    _ = a + b := by rw [hd]

/-- Setting the PREVFREE bit, arithmetically. -/
theorem lor_two (v : Nat) : v ||| 2 = v - (v % 4 - v % 2) + 2 := by
  have h4 : v % 4 < 4 := Nat.mod_lt _ (by norm_num)
  have hdm : 4 * (v / 4) + v % 4 = v := Nat.div_add_mod v 4
  have h1 : v ||| 2 = 4 * (v / 4) + (v % 4 ||| 2) := by
    conv_lhs => rw [← hdm]
    have e1 : (4 : Nat) * (v / 4) + v % 4 = 2 ^ 2 * (v / 4) + v % 4 := by norm_num
    have e2 : (4 : Nat) * (v / 4) + (v % 4 ||| 2) = 2 ^ 2 * (v / 4) + (v % 4 ||| 2) := by
      norm_num
    rw [e1, e2, Nat.mul_add_lt_is_or (show v % 4 < 2 ^ 2 by omega) (v / 4),
      Nat.lor_assoc]
    have h2 : v % 4 ||| 2 < 2 ^ 2 := by interval_cases h : (v % 4) <;> decide
    rw [Nat.mul_add_lt_is_or h2 (v / 4)]
  have h2 : v % 2 = v % 4 % 2 := (Nat.mod_mod_of_dvd v (by norm_num)).symm
  rw [h1]
  interval_cases h : (v % 4) <;> simp_all <;> omega

theorem BASE_eq : BASE = 2 ^ 35 := by norm_num [BASE]

/-- Link decoding: an offset below 2 to the 35 decodes to BASE plus it. -/
theorem ptr_address_eq (o : Nat) (h : o < 2 ^ 35) : ptr_address o = BASE + o := by
  unfold ptr_address
  rw [BASE_eq]
  exact lor_eq_add 35 (by norm_num) h

/-- The null offset decodes to the sentinel address BASE. -/
theorem ptr_address_zero : ptr_address 0 = BASE := by
  unfold ptr_address
  simp

/-- Encoding then decoding a heap address is the identity. -/
theorem ptr_address_size (a : Nat) (h1 : BASE ≤ a) (h2 : a < BASE + 2 ^ 35) :
    ptr_address (ptr_size a) = a := by
  have hB : BASE = 2 ^ 35 := BASE_eq
  unfold ptr_size
  rw [ptr_address_eq _ (by omega)]
  omega

/-! ## Small-step reading lemmas -/

theorem write_mem (s : State) (a v x : Nat) :
    (write s a v).mem x = if x = a then v else s.mem x := rfl

theorem write_heap_start (s : State) (a v : Nat) :
    (write s a v).heap_start = s.heap_start := rfl

theorem write_heap_end (s : State) (a v : Nat) :
    (write s a v).heap_end = s.heap_end := rfl

theorem write_last (s : State) (a v : Nat) : (write s a v).last = s.last := rfl

theorem write_list_start (s : State) (a v : Nat) :
    (write s a v).list_start = s.list_start := rfl

theorem write_list_end (s : State) (a v : Nat) :
    (write s a v).list_end = s.list_end := rfl

/-- Orring disjoint flag bits into an aligned size is an addition. -/
theorem lor_flags {size flags : Nat} (hsz : size % 4 = 0) (hfl : flags < 4) :
    size ||| flags = size + flags := by
  rw [show (4 : Nat) = 2 ^ 2 by norm_num] at hsz hfl
  exact lor_eq_add 2 hsz hfl

theorem read_write_eq (s : State) (a v : Nat) : (write s a v).mem a = v := by
  simp [write]

theorem read_write_ne (s : State) (a v x : Nat) (h : x ≠ a) :
    (write s a v).mem x = s.mem x := by
  simp [write, h]

theorem bt_clr_prevfree_mem (s : State) (a x : Nat) (ha : a ≠ 0) :
    (bt_clr_prevfree s a).mem x =
      if x = a then s.mem a - (s.mem a % 4 - s.mem a % 2) else s.mem x := by
  unfold bt_clr_prevfree
  rw [if_pos ha]
  rfl

theorem bt_clr_prevfree_heap_end (s : State) (a : Nat) :
    (bt_clr_prevfree s a).heap_end = s.heap_end := by
  unfold bt_clr_prevfree
  split <;> rfl

theorem bt_set_prevfree_heap_end (s : State) (a : Nat) :
    (bt_set_prevfree s a).heap_end = s.heap_end := rfl

theorem bt_set_prevfree_mem (s : State) (a x : Nat) :
    (bt_set_prevfree s a).mem x =
      if x = a then s.mem a ||| 2 else s.mem x := rfl

theorem bt_next_eq (s : State) (bt : Nat) (h : bt + bt_size s bt ≤ s.heap_end) :
    bt_next s bt = bt + bt_size s bt := by
  simp only [bt_next]
  rw [if_pos h]

/-- What bt_make writes when the flags mark the block free: the header at
bt and the footer at bt + size - 4 both get size + flags, the successor
header at bt + size gets its PREVFREE bit set (after the initial clear),
and no other word moves. -/
theorem bt_make_free_mem (s : State) (bt size flags : Nat)
    (hsz : size % 16 = 0) (h16 : 16 ≤ size) (hfl : flags < 4) (hfree : flags % 2 = 0)
    (hle : bt + size ≤ s.heap_end) (x : Nat) :
    (bt_make s bt size flags).mem x =
      if x = bt + size then
        s.mem (bt + size) - (s.mem (bt + size) % 4 - s.mem (bt + size) % 2) + 2
      else if x = bt + size - 4 then size + flags
      else if x = bt then size + flags
      else s.mem x := by
  have hlor : size ||| flags = size + flags := lor_flags (by omega) hfl
  have hm1bt : (write s bt (size + flags)).mem bt = size + flags := read_write_eq s bt _
  have hsz1 : bt_size (write s bt (size + flags)) bt = size := by
    unfold bt_size
    rw [hm1bt]
    omega
  have hnext1 : bt_next (write s bt (size + flags)) bt = bt + size := by
    rw [bt_next_eq, hsz1]
    rw [hsz1, write_heap_end]
    exact hle
  have hm2bt : (bt_clr_prevfree (write s bt (size + flags)) (bt + size)).mem bt
      = size + flags := by
    rw [bt_clr_prevfree_mem _ _ _ (by omega), if_neg (by omega)]
    exact hm1bt
  have hfree2 : bt_free (bt_clr_prevfree (write s bt (size + flags)) (bt + size)) bt := by
    unfold bt_free
    rw [hm2bt]
    omega
  have hsz2 : bt_size (bt_clr_prevfree (write s bt (size + flags)) (bt + size)) bt = size := by
    unfold bt_size
    rw [hm2bt]
    omega
  have hfoot2 : bt_footer (bt_clr_prevfree (write s bt (size + flags)) (bt + size)) bt
      = bt + size - 4 := by
    unfold bt_footer
    rw [hsz2]
  have hm3bt : (write (bt_clr_prevfree (write s bt (size + flags)) (bt + size))
      (bt + size - 4) (size + flags)).mem bt = size + flags := by
    rw [read_write_ne _ _ _ _ (by omega)]
    exact hm2bt
  have hsz3 : bt_size (write (bt_clr_prevfree (write s bt (size + flags)) (bt + size))
      (bt + size - 4) (size + flags)) bt = size := by
    unfold bt_size
    rw [hm3bt]
    omega
  have hnext3 : bt_next (write (bt_clr_prevfree (write s bt (size + flags)) (bt + size))
      (bt + size - 4) (size + flags)) bt = bt + size := by
    rw [bt_next_eq, hsz3]
    rw [hsz3, write_heap_end, bt_clr_prevfree_heap_end, write_heap_end]
    exact hle
  have hA : bt_make s bt size flags =
      bt_set_prevfree (write (bt_clr_prevfree (write s bt (size + flags)) (bt + size))
        (bt + size - 4) (size + flags)) (bt + size) := by
    simp only [bt_make, hlor]
    rw [hnext1, if_pos hfree2, hfoot2, hnext3]
  rw [hA, bt_set_prevfree_mem]
  by_cases h1 : x = bt + size
  · rw [if_pos h1, if_pos h1]
    rw [read_write_ne _ _ _ _ (by omega),
      bt_clr_prevfree_mem _ _ _ (by omega), if_pos rfl,
      read_write_ne _ _ _ _ (by omega)]
    rw [lor_two]
    omega
  · rw [if_neg h1, if_neg h1]
    by_cases h2 : x = bt + size - 4
    · subst h2
      rw [read_write_eq, if_pos rfl]
    · rw [if_neg h2, read_write_ne _ _ _ _ h2,
        bt_clr_prevfree_mem _ _ _ (by omega), if_neg h1]
      by_cases h3 : x = bt
      · subst h3
        rw [read_write_eq, if_pos rfl]
      · rw [if_neg h3, read_write_ne _ _ _ _ h3]

/-- What bt_make writes when the flags mark the block used: the header at
bt gets size + flags, the successor header at bt + size gets its PREVFREE
bit cleared, no footer is written, and no other word moves. -/
theorem bt_make_used_mem (s : State) (bt size flags : Nat)
    (hsz : size % 16 = 0) (h16 : 16 ≤ size) (hfl : flags < 4) (hused : flags % 2 = 1)
    (hle : bt + size ≤ s.heap_end) (x : Nat) :
    (bt_make s bt size flags).mem x =
      if x = bt + size then s.mem (bt + size) - (s.mem (bt + size) % 4 - s.mem (bt + size) % 2)
      else if x = bt then size + flags
      else s.mem x := by
  have hlor : size ||| flags = size + flags := lor_flags (by omega) hfl
  have hm1bt : (write s bt (size + flags)).mem bt = size + flags := read_write_eq s bt _
  have hsz1 : bt_size (write s bt (size + flags)) bt = size := by
    unfold bt_size
    rw [hm1bt]
    omega
  have hnext1 : bt_next (write s bt (size + flags)) bt = bt + size := by
    rw [bt_next_eq, hsz1]
    rw [hsz1, write_heap_end]
    exact hle
  have hm2bt : (bt_clr_prevfree (write s bt (size + flags)) (bt + size)).mem bt
      = size + flags := by
    rw [bt_clr_prevfree_mem _ _ _ (by omega), if_neg (by omega)]
    exact hm1bt
  have hnfree : ¬bt_free (bt_clr_prevfree (write s bt (size + flags)) (bt + size)) bt := by
    unfold bt_free
    rw [hm2bt]
    omega
  have hA : bt_make s bt size flags
      = bt_clr_prevfree (write s bt (size + flags)) (bt + size) := by
    simp only [bt_make, hlor]
    rw [hnext1, if_neg hnfree]
  rw [hA, bt_clr_prevfree_mem _ _ _ (by omega)]
  by_cases h1 : x = bt + size
  · rw [if_pos h1, if_pos h1]
    rw [read_write_ne _ _ _ _ (by omega)]
  · rw [if_neg h1, if_neg h1]
    by_cases h2 : x = bt
    · subst h2
      rw [read_write_eq, if_pos rfl]
    · rw [read_write_ne _ _ _ _ h2, if_neg h2]

theorem bt_clr_prevfree_heap_start (s : State) (a : Nat) :
    (bt_clr_prevfree s a).heap_start = s.heap_start := by
  unfold bt_clr_prevfree
  split <;> rfl

theorem bt_clr_prevfree_last (s : State) (a : Nat) :
    (bt_clr_prevfree s a).last = s.last := by
  unfold bt_clr_prevfree
  split <;> rfl

theorem bt_clr_prevfree_list_start (s : State) (a : Nat) :
    (bt_clr_prevfree s a).list_start = s.list_start := by
  unfold bt_clr_prevfree
  split <;> rfl

theorem bt_clr_prevfree_list_end (s : State) (a : Nat) :
    (bt_clr_prevfree s a).list_end = s.list_end := by
  unfold bt_clr_prevfree
  split <;> rfl

theorem bt_set_prevfree_heap_start (s : State) (a : Nat) :
    (bt_set_prevfree s a).heap_start = s.heap_start := rfl

theorem bt_set_prevfree_last (s : State) (a : Nat) :
    (bt_set_prevfree s a).last = s.last := rfl

theorem bt_set_prevfree_list_start (s : State) (a : Nat) :
    (bt_set_prevfree s a).list_start = s.list_start := rfl

theorem bt_set_prevfree_list_end (s : State) (a : Nat) :
    (bt_set_prevfree s a).list_end = s.list_end := rfl

theorem bt_make_heap_start (s : State) (bt size flags : Nat) :
    (bt_make s bt size flags).heap_start = s.heap_start := by
  simp only [bt_make]
  split
  · rw [bt_set_prevfree_heap_start, write_heap_start, bt_clr_prevfree_heap_start,
      write_heap_start]
  · rw [bt_clr_prevfree_heap_start, write_heap_start]

theorem bt_make_heap_end (s : State) (bt size flags : Nat) :
    (bt_make s bt size flags).heap_end = s.heap_end := by
  simp only [bt_make]
  split
  · rw [bt_set_prevfree_heap_end, write_heap_end, bt_clr_prevfree_heap_end, write_heap_end]
  · rw [bt_clr_prevfree_heap_end, write_heap_end]

theorem bt_make_last (s : State) (bt size flags : Nat) :
    (bt_make s bt size flags).last = s.last := by
  simp only [bt_make]
  split
  · rw [bt_set_prevfree_last, write_last, bt_clr_prevfree_last, write_last]
  · rw [bt_clr_prevfree_last, write_last]

theorem bt_make_list_start (s : State) (bt size flags : Nat) :
    (bt_make s bt size flags).list_start = s.list_start := by
  simp only [bt_make]
  split
  · rw [bt_set_prevfree_list_start, write_list_start, bt_clr_prevfree_list_start,
      write_list_start]
  · rw [bt_clr_prevfree_list_start, write_list_start]

theorem bt_make_list_end (s : State) (bt size flags : Nat) :
    (bt_make s bt size flags).list_end = s.list_end := by
  simp only [bt_make]
  split
  · rw [bt_set_prevfree_list_end, write_list_end, bt_clr_prevfree_list_end, write_list_end]
  · rw [bt_clr_prevfree_list_end, write_list_end]

/-- An aligned size already a multiple of 16 (and in the 32-bit range
headers can store) is a fixed point of round_up. -/
theorem round_up_exact {v : Nat} (h16 : 16 ≤ v) (hmod : v % 16 = 0) (hv : v < 2 ^ 32) :
    round_up v = v := by
  simp only [round_up, ALIGNMENT]
  have hlt : v + 16 - 1 < 2 ^ 64 := by
    have h2 : (2 : Nat) ^ 32 < 2 ^ 64 := by norm_num
    omega
  rw [Nat.mod_eq_of_lt hlt]
  omega

/-! ## C3: the bt_make contract -/

/-- C3: after bt_make(B, size, flags) on a block inside the managed heap
(so that a physically next block exists at B + size), the PREVFREE bit of
that next block's header equals the freeness flags give B - set when flags
mark B FREE, cleared when they mark B USED - and when B is FREE its footer
word equals its header word. -/
theorem bt_make_contract (s : State) (bt size flags : Nat)
    (hsz : size % 16 = 0) (h16 : 16 ≤ size) (hfl : flags < 4)
    (hle : bt + size ≤ s.heap_end) :
    bt_next (bt_make s bt size flags) bt = bt + size ∧
    (flags % 2 = 0 →
      bt_get_prevfree (bt_make s bt size flags) (bt + size) = PREVFREE ∧
      (bt_make s bt size flags).mem (bt_footer (bt_make s bt size flags) bt)
        = (bt_make s bt size flags).mem bt) ∧
    (flags % 2 = 1 →
      bt_get_prevfree (bt_make s bt size flags) (bt + size) = 0) := by
  by_cases hf : flags % 2 = 0
  · have hmem := bt_make_free_mem s bt size flags hsz h16 hfl hf hle
    have hbt : (bt_make s bt size flags).mem bt = size + flags := by
      rw [hmem bt, if_neg (by omega), if_neg (by omega), if_pos rfl]
    have hsz' : bt_size (bt_make s bt size flags) bt = size := by
      unfold bt_size
      rw [hbt]
      omega
    refine ⟨?_, fun _ => ⟨?_, ?_⟩, fun h1 => by omega⟩
    · rw [bt_next_eq, hsz']
      rw [hsz', bt_make_heap_end]
      exact hle
    · unfold bt_get_prevfree PREVFREE
      rw [hmem (bt + size), if_pos rfl]
      omega
    · have hfoot : bt_footer (bt_make s bt size flags) bt = bt + size - 4 := by
        unfold bt_footer
        rw [hsz']
      rw [hfoot, hbt, hmem (bt + size - 4), if_neg (by omega), if_pos rfl]
  · have hf1 : flags % 2 = 1 := by omega
    have hmem := bt_make_used_mem s bt size flags hsz h16 hfl hf1 hle
    have hbt : (bt_make s bt size flags).mem bt = size + flags := by
      rw [hmem bt, if_neg (by omega), if_pos rfl]
    have hsz' : bt_size (bt_make s bt size flags) bt = size := by
      unfold bt_size
      rw [hbt]
      omega
    refine ⟨?_, fun h0 => by omega, fun _ => ?_⟩
    · rw [bt_next_eq, hsz']
      rw [hsz', bt_make_heap_end]
      exact hle
    · unfold bt_get_prevfree
      rw [hmem (bt + size), if_pos rfl]
      omega

/-- Witness: bt_make_contract applied at the tiny heap, block 20, size 16,
FREE flags. -/
theorem bt_make_contract_witness :
    (16 % 16 = 0 ∧ 16 ≤ 16 ∧ (0 : Nat) < 4 ∧ 20 + 16 ≤ tiny_heap.heap_end) ∧
    (bt_next (bt_make tiny_heap 20 16 0) 20 = 20 + 16 ∧
      (0 % 2 = 0 →
        bt_get_prevfree (bt_make tiny_heap 20 16 0) (20 + 16) = PREVFREE ∧
        (bt_make tiny_heap 20 16 0).mem (bt_footer (bt_make tiny_heap 20 16 0) 20)
          = (bt_make tiny_heap 20 16 0).mem 20) ∧
      (0 % 2 = 1 →
        bt_get_prevfree (bt_make tiny_heap 20 16 0) (20 + 16) = 0)) :=
  ⟨⟨rfl, le_refl 16, by decide, by decide⟩,
    bt_make_contract tiny_heap 20 16 0 rfl (le_refl 16) (by decide) (by decide)⟩

/-! ## C9 and C10: the realloc shrink paths -/

/-- C9: realloc(p, size(block_of(p)) - W) returns p unchanged; in mm.c the
aligned request equals the block size, the leftover is 0, so the shrink
branch returns at once without touching the state or copying anything. -/
theorem realloc_shrink_exact (s : State) (ok : Bool) (fuel p : Nat)
    (hp : p ≠ 0) (hused : bt_used s (p - 4))
    (h16 : 16 ≤ bt_size s (p - 4)) (hmod : bt_size s (p - 4) % 16 = 0)
    (hlt : bt_size s (p - 4) < 2 ^ 32) :
    realloc s ok fuel p (bt_size s (p - 4) - 4) = some (s, p, []) := by
  have hasz : blksz (bt_size s (p - 4) - 4) = bt_size s (p - 4) := by
    unfold blksz
    rw [show bt_size s (p - 4) - 4 + 4 = bt_size s (p - 4) by omega]
    exact round_up_exact h16 hmod hlt
  simp only [realloc, bt_fromptr]
  rw [if_neg hp, if_neg (show ¬(bt_size s (p - 4) - 4 = 0) by omega), hasz,
    if_pos (le_refl (bt_size s (p - 4))),
    if_neg (show ¬16 ≤ bt_size s (p - 4) - bt_size s (p - 4) by omega)]

/-- Witness: realloc_shrink_exact on the all-17 heap at pointer 100. -/
theorem realloc_shrink_exact_witness :
    (100 ≠ 0 ∧ bt_used junk_heap (100 - 4) ∧ 16 ≤ bt_size junk_heap (100 - 4) ∧
      bt_size junk_heap (100 - 4) % 16 = 0 ∧ bt_size junk_heap (100 - 4) < 2 ^ 32) ∧
    realloc junk_heap true 1 100 (bt_size junk_heap (100 - 4) - 4)
      = some (junk_heap, 100, []) :=
  ⟨⟨by decide, rfl, by decide, by decide, by decide⟩,
    realloc_shrink_exact junk_heap true 1 100 (by decide) rfl (by decide) (by decide)
      (by decide)⟩

/-- C10: when the aligned request a = blksz(n) fits the block (a at most
its size b) and the leftover b - a is below 16, realloc(p, n) returns p
and leaves the whole state exactly as it was - no header, footer, list
field or bound changes, and no copy is performed. -/
theorem realloc_noop_frame (s : State) (ok : Bool) (fuel p n : Nat)
    (hp : p ≠ 0) (hn : 0 < n) (hused : bt_used s (p - 4))
    (hfit : blksz n ≤ bt_size s (p - 4))
    (hrest : bt_size s (p - 4) - blksz n < 16) :
    realloc s ok fuel p n = some (s, p, []) := by
  simp only [realloc, bt_fromptr]
  rw [if_neg hp, if_neg (show ¬(n = 0) by omega), if_pos hfit,
    if_neg (show ¬16 ≤ bt_size s (p - 4) - blksz n by omega)]

/-- Witness: realloc_noop_frame on the all-17 heap at pointer 100 with an
8-byte request. -/
theorem realloc_noop_frame_witness :
    (100 ≠ 0 ∧ 0 < 8 ∧ bt_used junk_heap (100 - 4) ∧
      blksz 8 ≤ bt_size junk_heap (100 - 4) ∧
      bt_size junk_heap (100 - 4) - blksz 8 < 16) ∧
    realloc junk_heap true 1 100 8 = some (junk_heap, 100, []) :=
  ⟨⟨by decide, by decide, rfl, by decide, by decide⟩,
    realloc_noop_frame junk_heap true 1 100 8 (by decide) (by decide) rfl (by decide)
      (by decide)⟩

/-! ## C4: malloc(0) -/

/-- The claim that allocate(0) returns null fails on the code: on the
freshly initialized heap, malloc(0) extends the heap by 16 bytes and
returns the non-null payload pointer BASE + 32. -/
theorem malloc_zero_not_null :
    (malloc fresh_heap true 1 0).map Prod.snd = some (BASE + 32) ∧
    BASE + 32 ≠ 0 := by decide

/-- C4 amended: allocate(0) does not return null; since blksz(0) = 16 =
blksz(1), allocate(0) behaves exactly as allocate(1), allocating a
minimum-size 16-byte block and returning its payload pointer. -/
theorem malloc_zero_eq_malloc_one (s : State) (ok : Bool) (fuel : Nat) :
    malloc s ok fuel 0 = malloc s ok fuel 1 := by
  unfold malloc
  rw [show blksz 0 = blksz 1 from by decide]

/-! ## C5: the missing calloc overflow check -/

/-- C5 shows a code bug: calloc never checks the product for overflow, so
calloc(2^33, 2^33) - whose size_t product wraps to 0 - calls malloc(0) and
returns a non-null 16-byte block instead of the null the spec demands. -/
theorem calloc_overflow_not_null :
    (calloc fresh_heap true 1 (2 ^ 33) (2 ^ 33)).map Prod.snd = some (BASE + 32) ∧
    BASE + 32 ≠ 0 ∧ 2 ^ 64 ≤ 2 ^ 33 * 2 ^ 33 := by decide

/-! ## C6 and C7: behavior when the provider refuses to grow -/

/-- C6 shows a code bug: when the provider refuses to grow, malloc does not
return null - it writes a header through the null pointer morecore handed
back (undefined behavior in C, a store at address 0 in this model) and
returns payload(0) = 4 - and realloc's tail-of-heap path ignores the
morecore failure and returns the old pointer instead of null. -/
theorem oom_not_null :
    (malloc fresh_heap false 1 1).map Prod.snd = some 4 ∧ (4 : Nat) ≠ 0 ∧
    (realloc one_used_block_heap false 1 (BASE + 32) 40).map (fun r => r.2.1)
      = some (BASE + 32) ∧ BASE + 32 ≠ 0 := by decide

/-- C7 shows a code bug: morecore advances heap_end and relocates the
epilogue before looking at the provider's answer, so a refused growth
still moves heap_end by the requested amount - the pre-call state is not
restored - and the failing malloc call returns with heap_end moved. -/
theorem oom_not_atomic :
    (morecore fresh_heap false 16).1.heap_end = fresh_heap.heap_end + 16 ∧
    (morecore fresh_heap false 16).2 = 0 ∧
    fresh_heap.heap_end + 16 ≠ fresh_heap.heap_end ∧
    (malloc fresh_heap false 1 1).map (fun r => r.1.heap_end)
      = some (fresh_heap.heap_end + 16) := by decide

/-! ## C8: the realloc payload copy into the left neighbor -/

/-- C8 shows a code bug: in the grow-into-left branch realloc calls
memcpy(payload(prev), p, n) - n bytes, not min(n, b) - W - with the plain
libc memcpy; here the destination BASE + 32 and source BASE + 48 overlap
over the 40 copied bytes, and 40 exceeds the 28 payload bytes the block
holds. -/
theorem realloc_left_copy_len :
    (realloc left_grow_heap false 1 (BASE + 48) 40).map (fun r => r.2.2)
      = some [⟨BASE + 32, BASE + 48, 40⟩] ∧
    (40 : Nat) ≠ min 40 32 - 4 ∧
    BASE + 32 < BASE + 48 ∧ BASE + 48 < BASE + 32 + 40 := by decide

/-! ## C2: the best-fit search -/

/-- The fueled find_fit loop over a chain of next links reaching the
sentinel computes the list fold find_fit_acc. -/
theorem find_fit_go_chain (s : State) (reqsz : Nat) (lst : List Nat) :
    ∀ p best fuel, nextChain s p lst → (∀ a ∈ lst, a ≠ BASE) →
      lst.length < fuel →
      find_fit_go s reqsz p best fuel = some (find_fit_acc s reqsz lst best) := by
  induction lst with
  | nil =>
    intro p best fuel hch hm hf
    cases fuel with
    | zero => simp at hf
    | succ f =>
      unfold nextChain at hch
      simp only [find_fit_go]
      rw [if_pos hch]
      rfl
  | cons a rest ih =>
    intro p best fuel hch hm hf
    cases fuel with
    | zero => simp at hf
    | succ f =>
      obtain ⟨hp, hch'⟩ := hch
      subst hp
      simp only [find_fit_go]
      rw [if_neg (hm p (List.mem_cons_self p rest))]
      simp only [find_fit_acc]
      exact ih (ptr_next s p) _ f hch'
        (fun x hx => hm x (List.mem_cons_of_mem p hx))
        (by simp only [List.length_cons] at hf; omega)

/-- Induction core for the best-fit fold: from an empty accumulator the
fold satisfies the best-fit postcondition; from a held fitting best it
either keeps it (nothing smaller fits) or improves to a listed block. -/
theorem find_fit_acc_spec (s : State) (reqsz : Nat) :
    ∀ (lst : List Nat) (best : Nat), (∀ x ∈ lst, x ≠ 0) →
      (best = 0 → bestFitResult s reqsz lst (find_fit_acc s reqsz lst best)) ∧
      (best ≠ 0 → reqsz ≤ bt_size s best →
        accKeeps s reqsz lst best (find_fit_acc s reqsz lst best) ∨
        accImproves s reqsz lst (bt_size s best) (find_fit_acc s reqsz lst best)) := by
  intro lst
  induction lst with
  | nil =>
    intro best hne
    constructor
    · intro hb
      exact Or.inl ⟨hb, by simp⟩
    · intro hb hle
      exact Or.inl ⟨rfl, by simp⟩
  | cons a rest ih =>
    intro best hne
    have hane : a ≠ 0 := hne a (List.mem_cons_self a rest)
    have hrne : ∀ x ∈ rest, x ≠ 0 := fun x hx => hne x (List.mem_cons_of_mem a hx)
    constructor
    · intro hb
      subst hb
      by_cases hfit : reqsz ≤ bt_size s a
      · have hstep : find_fit_acc s reqsz (a :: rest) 0 = find_fit_acc s reqsz rest a := by
          simp [find_fit_acc, hfit]
        rw [hstep]
        rcases (ih a hrne).2 hane hfit with hkeep | himp
        · obtain ⟨hr, hmin⟩ := hkeep
          rw [hr]
          refine Or.inr ⟨hane, hfit, ?_, [], rest, rfl, by simp⟩
          intro x hx hxf
          rcases List.mem_cons.mp hx with h | h
          · rw [h]
          · exact hmin x h hxf
        · obtain ⟨hr0, hrf, hrlt, hmin, l1, l2, hdec, htie⟩ := himp
          refine Or.inr ⟨hr0, hrf, ?_, a :: l1, l2, congrArg (List.cons a) hdec, ?_⟩
          · intro x hx hxf
            rcases List.mem_cons.mp hx with h | h
            · rw [h]; omega
            · exact hmin x h hxf
          · intro x hx hxf
            rcases List.mem_cons.mp hx with h | h
            · rw [h]; exact hrlt
            · exact htie x h hxf
      · have hstep : find_fit_acc s reqsz (a :: rest) 0 = find_fit_acc s reqsz rest 0 := by
          simp [find_fit_acc, hfit]
        rw [hstep]
        rcases (ih 0 hrne).1 rfl with hempty | hfound
        · obtain ⟨hr, hall⟩ := hempty
          refine Or.inl ⟨hr, ?_⟩
          intro x hx
          rcases List.mem_cons.mp hx with h | h
          · rw [h]; omega
          · exact hall x h
        · obtain ⟨hr0, hrf, hmin, l1, l2, hdec, htie⟩ := hfound
          refine Or.inr ⟨hr0, hrf, ?_, a :: l1, l2, congrArg (List.cons a) hdec, ?_⟩
          · intro x hx hxf
            rcases List.mem_cons.mp hx with h | h
            · rw [h] at hxf; omega
            · exact hmin x h hxf
          · intro x hx hxf
            rcases List.mem_cons.mp hx with h | h
            · rw [h] at hxf; omega
            · exact htie x h hxf
    · intro hb hle
      by_cases hfit : reqsz ≤ bt_size s a
      · by_cases hlt : bt_size s a < bt_size s best
        · have hstep : find_fit_acc s reqsz (a :: rest) best
              = find_fit_acc s reqsz rest a := by
            simp [find_fit_acc, hfit, hlt]
          rw [hstep]
          rcases (ih a hrne).2 hane hfit with hkeep | himp
          · obtain ⟨hr, hmin⟩ := hkeep
            rw [hr]
            refine Or.inr ⟨hane, hfit, hlt, ?_, [], rest, rfl, by simp⟩
            intro x hx hxf
            rcases List.mem_cons.mp hx with h | h
            · rw [h]
            · exact hmin x h hxf
          · obtain ⟨hr0, hrf, hrlt, hmin, l1, l2, hdec, htie⟩ := himp
            refine Or.inr ⟨hr0, hrf, by omega, ?_, a :: l1, l2,
              congrArg (List.cons a) hdec, ?_⟩
            · intro x hx hxf
              rcases List.mem_cons.mp hx with h | h
              · rw [h]; omega
              · exact hmin x h hxf
            · intro x hx hxf
              rcases List.mem_cons.mp hx with h | h
              · rw [h]; exact hrlt
              · exact htie x h hxf
        · have hstep : find_fit_acc s reqsz (a :: rest) best
              = find_fit_acc s reqsz rest best := by
            simp [find_fit_acc, hfit, hb, hlt]
          rw [hstep]
          rcases (ih best hrne).2 hb hle with hkeep | himp
          · obtain ⟨hr, hmin⟩ := hkeep
            refine Or.inl ⟨hr, ?_⟩
            intro x hx hxf
            rcases List.mem_cons.mp hx with h | h
            · rw [h]; omega
            · exact hmin x h hxf
          · obtain ⟨hr0, hrf, hrlt, hmin, l1, l2, hdec, htie⟩ := himp
            refine Or.inr ⟨hr0, hrf, hrlt, ?_, a :: l1, l2,
              congrArg (List.cons a) hdec, ?_⟩
            · intro x hx hxf
              rcases List.mem_cons.mp hx with h | h
              · rw [h]; omega
              · exact hmin x h hxf
            · intro x hx hxf
              rcases List.mem_cons.mp hx with h | h
              · rw [h]; omega
              · exact htie x h hxf
      · have hstep : find_fit_acc s reqsz (a :: rest) best
            = find_fit_acc s reqsz rest best := by
          simp [find_fit_acc, hfit]
        rw [hstep]
        rcases (ih best hrne).2 hb hle with hkeep | himp
        · obtain ⟨hr, hmin⟩ := hkeep
          refine Or.inl ⟨hr, ?_⟩
          intro x hx hxf
          rcases List.mem_cons.mp hx with h | h
          · rw [h] at hxf; omega
          · exact hmin x h hxf
        · obtain ⟨hr0, hrf, hrlt, hmin, l1, l2, hdec, htie⟩ := himp
          refine Or.inr ⟨hr0, hrf, hrlt, ?_, a :: l1, l2,
            congrArg (List.cons a) hdec, ?_⟩
          · intro x hx hxf
            rcases List.mem_cons.mp hx with h | h
            · rw [h] at hxf; omega
            · exact hmin x h hxf
          · intro x hx hxf
            rcases List.mem_cons.mp hx with h | h
            · rw [h] at hxf; omega
            · exact htie x h hxf

/-- C2: the fit search scans the entire free list and returns, among all
free blocks of size at least reqsz, the one with the smallest size,
breaking ties by the first such block in list order, and returns null when
no listed block is large enough (in particular when the list is empty). -/
theorem find_fit_best (s : State) (reqsz fuel : Nat) (lst : List Nat)
    (hch : if s.list_start = 0 then lst = []
      else nextChain s s.list_start lst)
    (hmem : ∀ a ∈ lst, a ≠ 0 ∧ a ≠ BASE)
    (hfuel : lst.length < fuel) :
    ∃ r, find_fit s reqsz fuel = some r ∧ bestFitResult s reqsz lst r := by
  by_cases h0 : s.list_start = 0
  · rw [if_pos h0] at hch
    subst hch
    refine ⟨0, ?_, Or.inl ⟨rfl, by simp⟩⟩
    unfold find_fit
    rw [if_pos h0]
  · rw [if_neg h0] at hch
    have hgo := find_fit_go_chain s reqsz lst s.list_start 0 fuel hch
      (fun a ha => (hmem a ha).2) hfuel
    refine ⟨find_fit_acc s reqsz lst 0, ?_, ?_⟩
    · unfold find_fit
      rw [if_neg h0]
      exact hgo
    · exact (find_fit_acc_spec s reqsz lst 0 (fun x hx => (hmem x hx).1)).1 rfl

/-- Witness: the best-fit search over the three-block list of
best_fit_heap with request 20 (sizes 48, 32, 32: a tie on 32, the first
32-block wins). -/
theorem find_fit_best_witness :
    ((if best_fit_heap.list_start = 0
        then ([BASE + 28, BASE + 76, BASE + 108] : List Nat) = []
        else nextChain best_fit_heap best_fit_heap.list_start
          [BASE + 28, BASE + 76, BASE + 108]) ∧
      (∀ a ∈ ([BASE + 28, BASE + 76, BASE + 108] : List Nat), a ≠ 0 ∧ a ≠ BASE) ∧
      ([BASE + 28, BASE + 76, BASE + 108] : List Nat).length < 4) ∧
    ∃ r, find_fit best_fit_heap 20 4 = some r ∧
      bestFitResult best_fit_heap 20 [BASE + 28, BASE + 76, BASE + 108] r :=
  ⟨⟨⟨rfl, by decide, by decide, rfl⟩, by decide, by decide⟩,
    find_fit_best best_fit_heap 20 4 [BASE + 28, BASE + 76, BASE + 108]
      ⟨rfl, by decide, by decide, rfl⟩ (by decide) (by decide)⟩

/-! ## C1 infrastructure: geometry of the block chain -/

theorem chainSeg_bounds (s : State) :
    ∀ (l : List Nat) (a e : Nat), chainSeg s a e l →
      a ≤ e ∧ ∀ b ∈ l, a ≤ b ∧ b + bt_size s b ≤ e ∧ 16 ≤ bt_size s b ∧
        bt_size s b % 16 = 0 := by
  intro l
  induction l with
  | nil =>
    intro a e h
    have he : a = e := h
    subst he
    exact ⟨le_refl a, by simp⟩
  | cons b rest ih =>
    intro a e h
    obtain ⟨hb, h16, hmod, hrest⟩ := h
    subst hb
    obtain ⟨hle, hmem⟩ := ih _ _ hrest
    refine ⟨by omega, ?_⟩
    intro x hx
    rcases List.mem_cons.mp hx with h | hx'
    · subst h
      refine ⟨le_refl x, ?_, h16, hmod⟩
      rcases rest with _ | ⟨y, rest'⟩
      · have : x + bt_size s x = e := hrest
        omega
      · have := hmem y (List.mem_cons_self y rest')
        obtain ⟨hy1, _, _, _⟩ := this
        have := (hmem y (List.mem_cons_self y rest')).2.1
        omega
    · have h1 := hmem x hx'
      exact ⟨by omega, h1.2.1, h1.2.2⟩

theorem chainSeg_ordered (s : State) :
    ∀ (l : List Nat) (a e : Nat), chainSeg s a e l →
      l.Pairwise (fun x y => x + bt_size s x ≤ y) := by
  intro l
  induction l with
  | nil => intro a e _; exact List.Pairwise.nil
  | cons b rest ih =>
    intro a e h
    obtain ⟨hb, h16, hmod, hrest⟩ := h
    subst hb
    refine List.Pairwise.cons ?_ (ih _ _ hrest)
    intro y hy
    exact ((chainSeg_bounds s rest _ _ hrest).2 y hy).1

theorem chainSeg_frame (s s' : State) :
    ∀ (l : List Nat) (a e : Nat), chainSeg s a e l →
      (∀ b ∈ l, s'.mem b = s.mem b) → chainSeg s' a e l := by
  intro l
  induction l with
  | nil => intro a e h _; exact h
  | cons b rest ih =>
    intro a e h hag
    obtain ⟨hb, h16, hmod, hrest⟩ := h
    subst hb
    have hsz : bt_size s' b = bt_size s b := by
      unfold bt_size
      rw [hag b (List.mem_cons_self b rest)]
    exact ⟨rfl, by rw [hsz]; exact h16, by rw [hsz]; exact hmod,
      by rw [hsz]; exact ih _ _ hrest (fun x hx => hag x (List.mem_cons_of_mem b hx))⟩

theorem chainSeg_append (s : State) :
    ∀ (u v : List Nat) (a e : Nat),
      chainSeg s a e (u ++ v) ↔ ∃ m, chainSeg s a m u ∧ chainSeg s m e v := by
  intro u
  induction u with
  | nil =>
    intro v a e
    constructor
    · intro h
      exact ⟨a, rfl, h⟩
    · rintro ⟨m, hm, hv⟩
      have : a = m := hm
      subst this
      exact hv
  | cons b rest ih =>
    intro v a e
    constructor
    · intro h
      obtain ⟨hb, h16, hmod, hrest⟩ := h
      subst hb
      obtain ⟨m, hu, hv⟩ := (ih v _ e).mp hrest
      exact ⟨m, ⟨rfl, h16, hmod, hu⟩, hv⟩
    · rintro ⟨m, ⟨hb, h16, hmod, hu⟩, hv⟩
      subst hb
      exact ⟨rfl, h16, hmod, (ih v _ e).mpr ⟨m, hu, hv⟩⟩

/-! ## C1 infrastructure: the PREVFREE chain -/

theorem pfbit_get (s : State) (x : Nat) : bt_get_prevfree s x = 2 * pfbit s x := by
  unfold bt_get_prevfree pfbit
  omega

theorem pfOk_append (s : State) :
    ∀ (u v : List Nat) (pv : Nat),
      pfOk s pv (u ++ v) ↔ ∃ mid, pfSeg s pv u mid ∧ pfOk s mid v := by
  intro u
  induction u with
  | nil =>
    intro v pv
    constructor
    · intro h
      exact ⟨pv, rfl, h⟩
    · rintro ⟨mid, hm, hv⟩
      have : pv = mid := hm
      subst this
      exact hv
  | cons b rest ih =>
    intro v pv
    constructor
    · intro h
      obtain ⟨hb, hrest⟩ := h
      obtain ⟨mid, hu, hv⟩ := (ih v _).mp hrest
      exact ⟨mid, ⟨hb, hu⟩, hv⟩
    · rintro ⟨mid, ⟨hb, hu⟩, hv⟩
      exact ⟨hb, (ih v _).mpr ⟨mid, hu, hv⟩⟩

theorem pfSeg_frame (s s' : State) :
    ∀ (l : List Nat) (pv out : Nat), pfSeg s pv l out →
      (∀ b ∈ l, s'.mem b = s.mem b) → pfSeg s' pv l out := by
  intro l
  induction l with
  | nil => intro pv out h _; exact h
  | cons b rest ih =>
    intro pv out h hag
    obtain ⟨hb, hrest⟩ := h
    have he : s'.mem b = s.mem b := hag b (List.mem_cons_self b rest)
    refine ⟨?_, ?_⟩
    · unfold pfbit
      rw [he]
      exact hb
    · rw [he]
      exact ih _ _ hrest (fun x hx => hag x (List.mem_cons_of_mem b hx))

theorem pfOk_frame (s s' : State) (hhe : s'.heap_end = s.heap_end) :
    ∀ (l : List Nat) (pv : Nat), pfOk s pv l →
      (∀ b ∈ l, s'.mem b = s.mem b) → s'.mem s.heap_end = s.mem s.heap_end →
      pfOk s' pv l := by
  intro l
  induction l with
  | nil =>
    intro pv h _ hep
    show pfbit s' s'.heap_end = pv
    unfold pfbit
    rw [hhe, hep]
    exact h
  | cons b rest ih =>
    intro pv h hag hep
    obtain ⟨hb, hrest⟩ := h
    have he : s'.mem b = s.mem b := hag b (List.mem_cons_self b rest)
    refine ⟨?_, ?_⟩
    · unfold pfbit
      rw [he]
      exact hb
    · rw [he]
      exact ih _ hrest (fun x hx => hag x (List.mem_cons_of_mem b hx)) hep

theorem footersOk_frame (s s' : State) (l : List Nat)
    (h : footersOk s l)
    (hag : ∀ b ∈ l, s'.mem b = s.mem b)
    (hfoot : ∀ b ∈ l, bt_free s b → s'.mem (b + bt_size s b - 4) = s.mem (b + bt_size s b - 4)) :
    footersOk s' l := by
  intro b hb hf
  have he : s'.mem b = s.mem b := hag b hb
  have hsz : bt_size s' b = bt_size s b := by
    unfold bt_size
    rw [he]
  have hf0 : bt_free s b := by
    unfold bt_free at hf ⊢
    rw [he] at hf
    exact hf
  rw [hsz, he, hfoot b hb hf0]
  exact h b hb hf0

theorem noAdjFree_frame (s s' : State) :
    ∀ (l : List Nat), noAdjFree s l → (∀ b ∈ l, s'.mem b = s.mem b) →
      noAdjFree s' l := by
  intro l
  induction l with
  | nil => intro h _; exact List.chain'_nil
  | cons a rest ih =>
    intro h hag
    rcases rest with _ | ⟨b, rest'⟩
    · exact List.chain'_singleton a
    · unfold noAdjFree at h ⊢
      rw [List.chain'_cons] at h ⊢
      obtain ⟨hab, hrest⟩ := h
      have ha := hag a (List.mem_cons_self _ _)
      have hb := hag b (List.mem_cons_of_mem _ (List.mem_cons_self _ _))
      refine ⟨?_, ih hrest (fun x hx => hag x (List.mem_cons_of_mem _ hx))⟩
      unfold bt_free at hab ⊢
      rw [ha, hb]
      exact hab

theorem listSeg_nil (s : State) (pv nxt : Nat) : listSeg s pv [] nxt := trivial

theorem listSeg_cons (s : State) (pv nxt a : Nat) (rest : List Nat) :
    listSeg s pv (a :: rest) nxt ↔
      s.mem (a + 8) = pv ∧ s.mem (a + 4) = nextOff nxt rest ∧
        listSeg s (off a) rest nxt := Iff.rfl

theorem nextOff_nil (nxt : Nat) : nextOff nxt [] = nxt := rfl

theorem nextOff_cons (nxt b : Nat) (l : List Nat) : nextOff nxt (b :: l) = off b := rfl

theorem pvAfter_nil (pv : Nat) : pvAfter pv [] = pv := rfl

theorem pvAfter_cons (pv a : Nat) (rest : List Nat) :
    pvAfter pv (a :: rest) = pvAfter (off a) rest := by
  unfold pvAfter
  rcases rest with _ | ⟨b, rest'⟩
  · rfl
  · rw [List.getLast?_cons_cons]
    cases h : (b :: rest').getLast? with
    | none => simp at h
    | some p => rfl

theorem pvAfter_concat (pv : Nat) (u : List Nat) (p : Nat) :
    pvAfter pv (u ++ [p]) = off p := by
  unfold pvAfter
  rw [List.getLast?_concat]

theorem listSeg_frame (s s' : State) :
    ∀ (l : List Nat) (pv nxt : Nat), listSeg s pv l nxt →
      (∀ a ∈ l, s'.mem (a + 4) = s.mem (a + 4) ∧ s'.mem (a + 8) = s.mem (a + 8)) →
      listSeg s' pv l nxt := by
  intro l
  induction l with
  | nil => intro pv nxt _ _; exact listSeg_nil s' pv nxt
  | cons a rest ih =>
    intro pv nxt h hag
    rw [listSeg_cons] at h ⊢
    obtain ⟨h8, h4, hrest⟩ := h
    refine ⟨?_, ?_, ?_⟩
    · rw [(hag a (List.mem_cons_self a rest)).2]
      exact h8
    · rw [(hag a (List.mem_cons_self a rest)).1]
      exact h4
    · exact ih _ _ hrest (fun x hx => hag x (List.mem_cons_of_mem a hx))

theorem listSeg_append (s : State) :
    ∀ (u v : List Nat) (pv nxt : Nat),
      listSeg s pv (u ++ v) nxt ↔
        listSeg s pv u (nextOff nxt v) ∧ listSeg s (pvAfter pv u) v nxt := by
  intro u
  induction u with
  | nil =>
    intro v pv nxt
    rw [List.nil_append, pvAfter_nil]
    exact ⟨fun h => ⟨listSeg_nil s pv _, h⟩, fun h => h.2⟩
  | cons a rest ih =>
    intro v pv nxt
    rw [List.cons_append, listSeg_cons, listSeg_cons, ih v (off a) nxt,
      pvAfter_cons]
    constructor
    · rintro ⟨h8, h4, hu, hv⟩
      refine ⟨⟨h8, ?_, hu⟩, hv⟩
      rcases rest with _ | ⟨b, rest'⟩
      · rcases v with _ | ⟨c, v'⟩ <;> exact h4
      · exact h4
    · rintro ⟨⟨h8, h4, hu⟩, hv⟩
      refine ⟨h8, ?_, hu, hv⟩
      rcases rest with _ | ⟨b, rest'⟩
      · rcases v with _ | ⟨c, v'⟩ <;> exact h4
      · exact h4

/-! ## C1 infrastructure: the free-list operations -/

theorem sep_nodup {l : List Nat}
    (h : l.Pairwise (fun x y => x + 16 ≤ y ∨ y + 16 ≤ x)) : l.Nodup :=
  List.Pairwise.imp (fun hab => by omega) h

/-- Decoding the stored offset of an in-range address yields the address. -/
theorem ptr_address_off (b : Nat) (h1 : BASE < b) (h2 : b < BASE + 2 ^ 31) :
    ptr_address (off b) = b := by
  rw [off_def]
  have hp : (2 : Nat) ^ 31 ≤ 2 ^ 35 := by norm_num
  exact ptr_address_size b (by omega) (by omega)

theorem list_set_next_mem (s : State) (block val y : Nat) :
    (list_set_next s block val).mem y =
      if y = block + 4 then ptr_size val else s.mem y := rfl

theorem list_set_prev_mem (s : State) (block val y : Nat) :
    (list_set_prev s block val).mem y =
      if y = block + 8 then ptr_size val else s.mem y := rfl

theorem list_clr_next_mem (s : State) (block y : Nat) :
    (list_clr_next s block).mem y = if y = block + 4 then 0 else s.mem y := rfl

theorem list_clr_prev_mem (s : State) (block y : Nat) :
    (list_clr_prev s block).mem y = if y = block + 8 then 0 else s.mem y := rfl

/-- list_add pushes b at the head: the new list representation holds, only
the link words of b and the prev link of the old head move, and the other
state fields survive. -/
theorem list_add_spec (s : State) (lst : List Nat) (b : Nat)
    (hrep : listRep s lst)
    (hb1 : BASE < b) (hb2 : b < BASE + 2 ^ 31)
    (hsep : ∀ a ∈ lst, a + 16 ≤ b ∨ b + 16 ≤ a) :
    listRep (list_add s b) (b :: lst) ∧
    (∀ y, y ≠ b + 4 → y ≠ b + 8 → (∀ a ∈ lst, y ≠ a + 8) →
      (list_add s b).mem y = s.mem y) ∧
    (list_add s b).heap_start = s.heap_start ∧
    (list_add s b).heap_end = s.heap_end ∧
    (list_add s b).last = s.last ∧
    (list_add s b).list_start = b := by
  obtain ⟨hpw, hrange, hnil, hcons, hseg⟩ := hrep
  rcases lst with _ | ⟨a0, rest0⟩
  · have h0 : s.list_start = 0 := (hnil rfl).1
    have hA : list_add s b
        = list_clr_prev (list_clr_next { s with list_start := b, list_end := b } b) b := by
      simp only [list_add]
      rw [if_pos h0]
      rfl
    have hmem : ∀ y, (list_add s b).mem y
        = (list_clr_prev (list_clr_next { s with list_start := b, list_end := b } b) b).mem y := by
      intro y
      rw [hA]
    refine ⟨⟨?_, ?_, ?_, ?_, ?_⟩, ?_, by rw [hA]; rfl, by rw [hA]; rfl, by rw [hA]; rfl,
      by rw [hA]; rfl⟩
    · exact List.pairwise_singleton _ b
    · intro a ha
      rw [List.mem_singleton] at ha
      subst ha
      exact ⟨hb1, hb2⟩
    · intro h
      cases h
    · intro a rest h
      injection h with h1 h2
      subst h1
      subst h2
      exact ⟨by rw [hA]; rfl, by rw [hA]; rfl⟩
    · rw [listSeg_cons]
      refine ⟨?_, ?_, trivial⟩
      · rw [hmem, list_clr_prev_mem, if_pos rfl]
      · rw [hmem, list_clr_prev_mem, if_neg (by omega), list_clr_next_mem, if_pos rfl,
          nextOff_nil]
    · intro y hy4 hy8 _
      rw [hmem, list_clr_prev_mem, if_neg hy8, list_clr_next_mem, if_neg hy4]
  · have hstart : s.list_start = a0 := (hcons a0 rest0 rfl).1
    have hend : (a0 :: rest0).getLast? = some s.list_end := (hcons a0 rest0 rfl).2
    have ha0 : BASE < a0 ∧ a0 < BASE + 2 ^ 31 := hrange a0 (List.mem_cons_self a0 rest0)
    have hsepa0 : a0 + 16 ≤ b ∨ b + 16 ≤ a0 := hsep a0 (List.mem_cons_self a0 rest0)
    have hA : list_add s b
        = { list_clr_prev (list_set_prev (list_set_next s b a0) a0 b) b with
            list_start := b } := by
      simp only [list_add]
      rw [hstart]
      rw [if_neg (by omega)]
      rw [show (list_set_next s b a0).list_start = s.list_start from rfl, hstart]
    have hmem : ∀ y, (list_add s b).mem y
        = (list_clr_prev (list_set_prev (list_set_next s b a0) a0 b) b).mem y := by
      intro y
      rw [hA]
    have hseg0 := (listSeg_cons s 0 0 a0 rest0).mp hseg
    obtain ⟨ha08, ha04, hsegrest⟩ := hseg0
    have hpwrest := (List.pairwise_cons.mp hpw).1
    refine ⟨⟨?_, ?_, ?_, ?_, ?_⟩, ?_, by rw [hA]; rfl, by rw [hA]; rfl, by rw [hA]; rfl,
      by rw [hA]⟩
    · exact List.pairwise_cons.mpr ⟨fun a ha => (hsep a ha).symm, hpw⟩
    · intro a ha
      rcases List.mem_cons.mp ha with h | h
      · subst h
        exact ⟨hb1, hb2⟩
      · exact hrange a h
    · intro h
      cases h
    · intro a rest h
      injection h with h1 h2
      subst h1
      subst h2
      refine ⟨by rw [hA], ?_⟩
      rw [hA]
      show (b :: a0 :: rest0).getLast? = some s.list_end
      rw [List.getLast?_cons_cons]
      exact hend
    · rw [listSeg_cons]
      refine ⟨?_, ?_, ?_⟩
      · rw [hmem, list_clr_prev_mem, if_pos rfl]
      · rw [hmem, list_clr_prev_mem, if_neg (by omega), list_set_prev_mem,
          if_neg (by omega), list_set_next_mem, if_pos rfl, ptr_size_off, nextOff_cons]
      · rw [listSeg_cons]
        refine ⟨?_, ?_, ?_⟩
        · rw [hmem, list_clr_prev_mem, if_neg (by omega), list_set_prev_mem, if_pos rfl,
            ptr_size_off]
        · rw [hmem, list_clr_prev_mem, if_neg (by omega), list_set_prev_mem,
            if_neg (by omega), list_set_next_mem, if_neg (by omega)]
          exact ha04
        · refine listSeg_frame s _ rest0 (off a0) 0 hsegrest ?_
          intro x hx
          have hsx : x + 16 ≤ b ∨ b + 16 ≤ x := hsep x (List.mem_cons_of_mem a0 hx)
          have hax := hpwrest x hx
          constructor
          · rw [hmem, list_clr_prev_mem, if_neg (by omega), list_set_prev_mem,
              if_neg (by omega), list_set_next_mem, if_neg (by omega)]
          · rw [hmem, list_clr_prev_mem, if_neg (by omega), list_set_prev_mem,
              if_neg (by omega), list_set_next_mem, if_neg (by omega)]
    · intro y hy4 hy8 hyl
      rw [hmem, list_clr_prev_mem, if_neg hy8, list_set_prev_mem,
        if_neg (hyl a0 (List.mem_cons_self a0 rest0)), list_set_next_mem, if_neg hy4]

/-- Removing the sole element of the list: both list fields become null and
nothing else changes. -/
theorem list_remove_sole_spec (s : State) (x : Nat) (hrep : listRep s [x]) :
    list_remove s x = { s with list_start := 0, list_end := 0 } := by
  obtain ⟨hpw, hrange, hnil, hcons, hseg⟩ := hrep
  obtain ⟨hstart, hend⟩ := hcons x [] rfl
  have hend' : s.list_end = x := by
    rw [show ([x] : List Nat).getLast? = some x from rfl] at hend
    injection hend with h
    exact h.symm
  simp only [list_remove]
  rw [if_pos ⟨hstart, hend'⟩]

/-- Removing the head of a list of two or more cells: the second cell
becomes the head and its prev link is nulled. -/
theorem list_remove_head_spec (s : State) (x n : Nat) (l2 : List Nat)
    (hrep : listRep s (x :: n :: l2)) :
    listRep (list_remove s x) (n :: l2) ∧
    (∀ y, (∀ a ∈ x :: n :: l2, y ≠ a + 4 ∧ y ≠ a + 8) →
      (list_remove s x).mem y = s.mem y) ∧
    (list_remove s x).heap_start = s.heap_start ∧
    (list_remove s x).heap_end = s.heap_end ∧
    (list_remove s x).last = s.last := by
  obtain ⟨hpw, hrange, hnil, hcons, hseg⟩ := hrep
  obtain ⟨hstart, hend⟩ := hcons x (n :: l2) rfl
  rw [List.getLast?_cons_cons] at hend
  have hsegc := (listSeg_cons s 0 0 x (n :: l2)).mp hseg
  obtain ⟨hx8, hx4, hsegnl⟩ := hsegc
  have hsegn := (listSeg_cons s (off x) 0 n l2).mp hsegnl
  obtain ⟨hn8, hn4, hsegl2⟩ := hsegn
  have hsepx := (List.pairwise_cons.mp hpw).1
  have hpwn := (List.pairwise_cons.mp hpw).2
  have hrn := hrange n (by simp)
  have hendmem : s.list_end ∈ n :: l2 := by
    have h1 : s.list_end ∈ (n :: l2).getLast? := by
      rw [hend]
      rfl
    obtain ⟨h2, h3⟩ := List.mem_getLast?_eq_getLast h1
    rw [h3]
    exact List.getLast_mem h2
  have hxend : s.list_end ≠ x := by
    have := hsepx s.list_end hendmem
    omega
  have hg1 : ¬(s.list_start = x ∧ s.list_end = x) := fun h => hxend h.2
  have hpn : ptr_next s s.list_start = n := by
    rw [hstart]
    show ptr_address (s.mem (x + 4)) = n
    rw [hx4, nextOff_cons]
    exact ptr_address_off n hrn.1 hrn.2
  have hA : list_remove s x = list_clr_prev { s with list_start := n } n := by
    simp only [list_remove]
    rw [if_neg hg1, if_pos hstart, hpn]
  have hmem : ∀ y, (list_remove s x).mem y
      = (list_clr_prev { s with list_start := n } n).mem y :=
    fun y => by rw [hA]
  refine ⟨⟨?_, ?_, ?_, ?_, ?_⟩, ?_, by rw [hA]; rfl, by rw [hA]; rfl, by rw [hA]; rfl⟩
  · exact hpwn
  · intro a ha
    exact hrange a (List.mem_cons_of_mem x ha)
  · intro h
    cases h
  · intro a rest h
    injection h with h1 h2
    subst h1
    subst h2
    constructor
    · rw [hA]
      rfl
    · rw [hA]
      show (n :: l2).getLast? = some s.list_end
      exact hend
  · rw [listSeg_cons]
    refine ⟨?_, ?_, ?_⟩
    · rw [hmem, list_clr_prev_mem, if_pos rfl]
    · rw [hmem, list_clr_prev_mem, if_neg (by omega)]
      exact hn4
    · refine listSeg_frame s _ l2 (off n) 0 hsegl2 ?_
      intro z hz
      have hsz := (List.pairwise_cons.mp hpwn).1 z hz
      constructor
      · rw [hmem, list_clr_prev_mem, if_neg (by omega)]
      · rw [hmem, list_clr_prev_mem, if_neg (by omega)]
  · intro y hy
    rw [hmem, list_clr_prev_mem, if_neg (hy n (by simp)).2]

/-- Removing the last cell of a list of two or more cells: its predecessor
becomes the tail and its next link is nulled. -/
theorem list_remove_tail_spec (s : State) (l10 : List Nat) (p x : Nat)
    (hrep : listRep s (l10 ++ [p] ++ [x])) :
    listRep (list_remove s x) (l10 ++ [p]) ∧
    (∀ y, (∀ a ∈ l10 ++ [p] ++ [x], y ≠ a + 4 ∧ y ≠ a + 8) →
      (list_remove s x).mem y = s.mem y) ∧
    (list_remove s x).heap_start = s.heap_start ∧
    (list_remove s x).heap_end = s.heap_end ∧
    (list_remove s x).last = s.last := by
  obtain ⟨hpw, hrange, hnil, hcons, hseg⟩ := hrep
  have hpwa := List.pairwise_append.mp hpw
  have hsepl1 : ∀ a ∈ l10 ++ [p], a + 16 ≤ x ∨ x + 16 ≤ a := by
    intro a ha
    exact hpwa.2.2 a ha x (by simp)
  have hrp := hrange p (by simp)
  obtain ⟨hseg1, hseg2⟩ := (listSeg_append s (l10 ++ [p]) [x] 0 0).mp hseg
  have hsegx := (listSeg_cons s (pvAfter 0 (l10 ++ [p])) 0 x []).mp hseg2
  obtain ⟨hx8, hx4, -⟩ := hsegx
  have hex : ∃ a0 r0, l10 ++ [p] = a0 :: r0 := by
    rcases l10 with _ | ⟨u, us⟩
    · exact ⟨p, [], rfl⟩
    · exact ⟨u, us ++ [p], by simp⟩
  obtain ⟨a0, r0, hl⟩ := hex
  have hlst : l10 ++ [p] ++ [x] = a0 :: (r0 ++ [x]) := by
    rw [hl]
    rfl
  obtain ⟨hstart, hendq⟩ := hcons a0 (r0 ++ [x]) hlst
  have hLx : (l10 ++ [p] ++ [x]).getLast? = some x := List.getLast?_concat _
  have hend' : s.list_end = x := by
    rw [hLx] at hendq
    injection hendq with h
    exact h.symm
  have ha0l1 : a0 ∈ l10 ++ [p] := by
    rw [hl]
    simp
  have hg2 : s.list_start ≠ x := by
    rw [hstart]
    have := hsepl1 a0 ha0l1
    omega
  have hg1 : ¬(s.list_start = x ∧ s.list_end = x) := fun h => hg2 h.1
  have hpp : ptr_prev s s.list_end = p := by
    rw [hend']
    show ptr_address (s.mem (x + 8)) = p
    rw [hx8, pvAfter_concat]
    exact ptr_address_off p hrp.1 hrp.2
  have hA : list_remove s x = list_clr_next { s with list_end := p } p := by
    simp only [list_remove]
    rw [if_neg hg1, if_neg hg2, if_pos hend', hpp]
  have hmem : ∀ y, (list_remove s x).mem y
      = (list_clr_next { s with list_end := p } p).mem y :=
    fun y => by rw [hA]
  obtain ⟨hseg10, hsegp⟩ :=
    (listSeg_append s l10 [p] 0 (nextOff 0 [x])).mp hseg1
  have hsegpc := (listSeg_cons s (pvAfter 0 l10) (nextOff 0 [x]) p []).mp hsegp
  obtain ⟨hp8, hp4, -⟩ := hsegpc
  refine ⟨⟨?_, ?_, ?_, ?_, ?_⟩, ?_, by rw [hA]; rfl, by rw [hA]; rfl, by rw [hA]; rfl⟩
  · exact hpwa.1
  · intro a ha
    exact hrange a (List.mem_append_left [x] ha)
  · intro h
    simp at h
  · intro a rest h
    have hstart0 : s.list_start = a := by
      rw [h] at hl
      injection hl with h1 h2
      subst h1
      exact hstart
    constructor
    · rw [hA]
      show s.list_start = a
      exact hstart0
    · rw [hA]
      show (l10 ++ [p]).getLast? = some p
      exact List.getLast?_concat _
  · refine (listSeg_append (list_remove s x) l10 [p] 0 0).mpr ⟨?_, ?_⟩
    · refine listSeg_frame s _ l10 0 (nextOff 0 [p]) ?_ ?_
      · rw [nextOff_cons]
        have he : nextOff (nextOff 0 [x]) [p] = off p := nextOff_cons _ p []
        rw [← he]
        exact hseg10
      · intro z hz
        have hzp := List.pairwise_append.mp hpwa.1
        have hsz : z + 16 ≤ p ∨ p + 16 ≤ z := hzp.2.2 z hz p (by simp)
        constructor
        · rw [hmem, list_clr_next_mem, if_neg (by omega)]
        · rw [hmem, list_clr_next_mem, if_neg (by omega)]
    · rw [listSeg_cons]
      refine ⟨?_, ?_, trivial⟩
      · rw [hmem, list_clr_next_mem, if_neg (by omega)]
        exact hp8
      · rw [hmem, list_clr_next_mem, if_pos rfl, nextOff_nil]
  · intro y hy
    rw [hmem, list_clr_next_mem, if_neg (hy p (by simp)).1]

/-- Removing a middle cell: its two list neighbors are linked to each
other and nothing else changes. -/
theorem list_remove_mid_spec (s : State) (l10 : List Nat) (p x n : Nat) (l2 : List Nat)
    (hrep : listRep s (l10 ++ [p] ++ x :: n :: l2)) :
    listRep (list_remove s x) (l10 ++ [p] ++ n :: l2) ∧
    (∀ y, (∀ a ∈ l10 ++ [p] ++ x :: n :: l2, y ≠ a + 4 ∧ y ≠ a + 8) →
      (list_remove s x).mem y = s.mem y) ∧
    (list_remove s x).heap_start = s.heap_start ∧
    (list_remove s x).heap_end = s.heap_end ∧
    (list_remove s x).last = s.last := by
  obtain ⟨hpw, hrange, hnil, hcons, hseg⟩ := hrep
  have hpwa := List.pairwise_append.mp hpw
  have hpwv := hpwa.2.1
  have hsepv := hpwa.2.2
  have hpwn := (List.pairwise_cons.mp hpwv).2
  have hsepxv := (List.pairwise_cons.mp hpwv).1
  have hrp := hrange p (by simp)
  have hrn := hrange n (by simp)
  obtain ⟨hseg1, hseg2⟩ := (listSeg_append s (l10 ++ [p]) (x :: n :: l2) 0 0).mp hseg
  have hsegx := (listSeg_cons s (pvAfter 0 (l10 ++ [p])) 0 x (n :: l2)).mp hseg2
  obtain ⟨hx8, hx4, hsegnl⟩ := hsegx
  have hsegn := (listSeg_cons s (off x) 0 n l2).mp hsegnl
  obtain ⟨hn8, hn4, hsegl2⟩ := hsegn
  obtain ⟨hseg10, hsegp⟩ :=
    (listSeg_append s l10 [p] 0 (nextOff 0 (x :: n :: l2))).mp hseg1
  have hsegpc := (listSeg_cons s (pvAfter 0 l10) (nextOff 0 (x :: n :: l2)) p []).mp hsegp
  obtain ⟨hp8, hp4, -⟩ := hsegpc
  have hex : ∃ a0 r0, l10 ++ [p] = a0 :: r0 := by
    rcases l10 with _ | ⟨u, us⟩
    · exact ⟨p, [], rfl⟩
    · exact ⟨u, us ++ [p], by simp⟩
  obtain ⟨a0, r0, hl⟩ := hex
  have hlst : l10 ++ [p] ++ x :: n :: l2 = a0 :: (r0 ++ x :: n :: l2) := by
    rw [hl]
    rfl
  obtain ⟨hstart, hendq⟩ := hcons a0 (r0 ++ x :: n :: l2) hlst
  have ha0l1 : a0 ∈ l10 ++ [p] := by
    rw [hl]
    simp
  have hg2 : s.list_start ≠ x := by
    rw [hstart]
    have := hsepv a0 ha0l1 x (by simp)
    omega
  have hg1 : ¬(s.list_start = x ∧ s.list_end = x) := fun h => hg2 h.1
  have hendLast : (l10 ++ [p] ++ x :: n :: l2).getLast? = (n :: l2).getLast? := by
    rw [List.getLast?_append_of_ne_nil _ (by simp)]
    exact List.getLast?_cons_cons
  have hendmem : s.list_end ∈ n :: l2 := by
    have h1 : s.list_end ∈ (n :: l2).getLast? := by
      rw [← hendLast, hendq]
      rfl
    obtain ⟨h2, h3⟩ := List.mem_getLast?_eq_getLast h1
    rw [h3]
    exact List.getLast_mem h2
  have hg3 : s.list_end ≠ x := by
    have := hsepxv s.list_end hendmem
    omega
  have hpp : ptr_prev s x = p := by
    show ptr_address (s.mem (x + 8)) = p
    rw [hx8, pvAfter_concat]
    exact ptr_address_off p hrp.1 hrp.2
  have hpn : ptr_next s x = n := by
    show ptr_address (s.mem (x + 4)) = n
    rw [hx4, nextOff_cons]
    exact ptr_address_off n hrn.1 hrn.2
  have hA : list_remove s x = list_set_prev (list_set_next s p n) n p := by
    simp only [list_remove]
    rw [if_neg hg1, if_neg hg2, if_neg hg3, hpp, hpn]
  have hmem : ∀ y, (list_remove s x).mem y
      = (list_set_prev (list_set_next s p n) n p).mem y :=
    fun y => by rw [hA]
  have hsep_pn : p + 16 ≤ n ∨ n + 16 ≤ p := hsepv p (by simp) n (by simp)
  refine ⟨⟨?_, ?_, ?_, ?_, ?_⟩, ?_, by rw [hA]; rfl, by rw [hA]; rfl, by rw [hA]; rfl⟩
  · refine List.Pairwise.sublist ?_ hpw
    exact List.Sublist.append_left ((List.Sublist.refl (n :: l2)).cons x) (l10 ++ [p])
  · intro a ha
    apply hrange
    rcases List.mem_append.mp ha with h | h
    · exact List.mem_append_left _ h
    · exact List.mem_append_right _ (List.mem_cons_of_mem x h)
  · intro h
    simp at h
  · intro a rest h
    have hstart0 : s.list_start = a := by
      rw [hl, List.cons_append] at h
      injection h with h1 h2
      subst h1
      exact hstart
    constructor
    · rw [hA]
      show s.list_start = a
      exact hstart0
    · rw [hA]
      show (l10 ++ [p] ++ n :: l2).getLast? = some s.list_end
      rw [List.getLast?_append_of_ne_nil _ (by simp), ← hendLast]
      exact hendq
  · refine (listSeg_append (list_remove s x) (l10 ++ [p]) (n :: l2) 0 0).mpr ⟨?_, ?_⟩
    · refine (listSeg_append (list_remove s x) l10 [p] 0 (nextOff 0 (n :: l2))).mpr ⟨?_, ?_⟩
      · refine listSeg_frame s _ l10 0 (nextOff (nextOff 0 (n :: l2)) [p]) ?_ ?_
        · rw [nextOff_cons]
          have he : nextOff (nextOff 0 (x :: n :: l2)) [p] = off p := nextOff_cons _ p []
          rw [← he]
          exact hseg10
        · intro z hz
          have hzp := List.pairwise_append.mp hpwa.1
          have hszp : z + 16 ≤ p ∨ p + 16 ≤ z := hzp.2.2 z hz p (by simp)
          have hszn : z + 16 ≤ n ∨ n + 16 ≤ z :=
            hsepv z (List.mem_append_left _ hz) n (by simp)
          constructor
          · rw [hmem, list_set_prev_mem, if_neg (by omega), list_set_next_mem,
              if_neg (by omega)]
          · rw [hmem, list_set_prev_mem, if_neg (by omega), list_set_next_mem,
              if_neg (by omega)]
      · rw [listSeg_cons]
        refine ⟨?_, ?_, trivial⟩
        · rw [hmem, list_set_prev_mem, if_neg (by omega), list_set_next_mem,
            if_neg (by omega)]
          exact hp8
        · rw [hmem, list_set_prev_mem, if_neg (by omega), list_set_next_mem, if_pos rfl,
            ptr_size_off, nextOff_nil, nextOff_cons]
    · rw [pvAfter_concat, listSeg_cons]
      refine ⟨?_, ?_, ?_⟩
      · rw [hmem, list_set_prev_mem, if_pos rfl, ptr_size_off]
      · rw [hmem, list_set_prev_mem, if_neg (by omega), list_set_next_mem,
          if_neg (by omega)]
        exact hn4
      · refine listSeg_frame s _ l2 (off n) 0 hsegl2 ?_
        intro z hz
        have hszp : p + 16 ≤ z ∨ z + 16 ≤ p :=
          hsepv p (by simp) z (List.mem_cons_of_mem x (List.mem_cons_of_mem n hz))
        have hszn := (List.pairwise_cons.mp hpwn).1 z hz
        constructor
        · rw [hmem, list_set_prev_mem, if_neg (by omega), list_set_next_mem,
            if_neg (by omega)]
        · rw [hmem, list_set_prev_mem, if_neg (by omega), list_set_next_mem,
            if_neg (by omega)]
  · intro y hy
    rw [hmem, list_set_prev_mem, if_neg (hy n (by simp)).2, list_set_next_mem,
      if_neg (hy p (by simp)).1]

/-! ## C1 infrastructure: derived geometry and frame lemmas -/

theorem pairwise_sym2 {R : Nat → Nat → Prop} :
    ∀ {l : List Nat}, l.Pairwise R →
      ∀ x ∈ l, ∀ y ∈ l, x ≠ y → R x y ∨ R y x := by
  intro l
  induction l with
  | nil => intro _ x hx; cases hx
  | cons a rest ih =>
    intro h x hx y hy hxy
    obtain ⟨ha, hrest⟩ := List.pairwise_cons.mp h
    rcases List.mem_cons.mp hx with rfl | hx'
    · rcases List.mem_cons.mp hy with rfl | hy'
      · exact absurd rfl hxy
      · exact Or.inl (ha y hy')
    · rcases List.mem_cons.mp hy with rfl | hy'
      · exact Or.inr (ha x hx')
      · exact ih hrest x hx' y hy' hxy

theorem pfSeg_append (s : State) :
    ∀ (u v : List Nat) (pv out : Nat),
      pfSeg s pv (u ++ v) out ↔ ∃ mid, pfSeg s pv u mid ∧ pfSeg s mid v out := by
  intro u
  induction u with
  | nil =>
    intro v pv out
    constructor
    · intro h
      exact ⟨pv, rfl, h⟩
    · rintro ⟨mid, hm, hv⟩
      have : pv = mid := hm
      subst this
      exact hv
  | cons b rest ih =>
    intro v pv out
    constructor
    · intro h
      obtain ⟨hb, hrest⟩ := h
      obtain ⟨mid, hu, hv⟩ := (ih v _ out).mp hrest
      exact ⟨mid, ⟨hb, hu⟩, hv⟩
    · rintro ⟨mid, ⟨hb, hu⟩, hv⟩
      exact ⟨hb, (ih v _ out).mpr ⟨mid, hu, hv⟩⟩

theorem pfSeg_concat (s : State) (u : List Nat) (P pv out : Nat) :
    pfSeg s pv (u ++ [P]) out ↔
      ∃ mid, pfSeg s pv u mid ∧ pfbit s P = mid ∧
        (if s.mem P % 2 = 0 then 1 else 0) = out := by
  rw [pfSeg_append]
  constructor
  · rintro ⟨mid, hu, hP, hout⟩
    exact ⟨mid, hu, hP, hout⟩
  · rintro ⟨mid, hu, hP, hout⟩
    exact ⟨mid, hu, hP, hout⟩

/-- Setting the PREVFREE bit of a word keeps its parity and its size field
and makes its PREVFREE bit 1. -/
theorem pf_word_facts (v : Nat) :
    (v - (v % 4 - v % 2) + 2) % 2 = v % 2 ∧
    (v - (v % 4 - v % 2) + 2) - (v - (v % 4 - v % 2) + 2) % 4 = v - v % 4 ∧
    (v - (v % 4 - v % 2) + 2) / 2 % 2 = 1 := by
  omega

theorem chainSeg_frame_size (s s' : State) :
    ∀ (l : List Nat) (a e : Nat), chainSeg s a e l →
      (∀ b ∈ l, bt_size s' b = bt_size s b) → chainSeg s' a e l := by
  intro l
  induction l with
  | nil => intro a e h _; exact h
  | cons b rest ih =>
    intro a e h hag
    obtain ⟨hb, h16, hmod, hrest⟩ := h
    subst hb
    have hsz := hag b (List.mem_cons_self b rest)
    exact ⟨rfl, by rw [hsz]; exact h16, by rw [hsz]; exact hmod,
      by rw [hsz]; exact ih _ _ hrest (fun x hx => hag x (List.mem_cons_of_mem b hx))⟩

theorem listRep_frame (s s' : State) (lst : List Nat)
    (h : listRep s lst)
    (hstart : s'.list_start = s.list_start) (hend : s'.list_end = s.list_end)
    (hmem : ∀ a ∈ lst, s'.mem (a + 4) = s.mem (a + 4) ∧ s'.mem (a + 8) = s.mem (a + 8)) :
    listRep s' lst := by
  obtain ⟨hpw, hrange, hnil, hcons, hseg⟩ := h
  refine ⟨hpw, hrange, ?_, ?_, listSeg_frame s s' lst 0 0 hseg hmem⟩
  · intro he
    rw [hstart, hend]
    exact hnil he
  · intro a rest hl
    rw [hstart, hend]
    exact hcons a rest hl

/-- Addresses protected by the invariants (block headers, footers within a
block's extent, and the epilogue) never collide with the free-list link
words x + 4 and x + 8 of any block x of the chain. -/
theorem chain_link_sep (s : State) (blks : List Nat) (hs he : Nat)
    (hch : chainSeg s hs he blks) :
    ∀ x ∈ blks, ∀ c ∈ blks,
      c ≠ x + 4 ∧ c ≠ x + 8 ∧
      c + bt_size s c - 4 ≠ x + 4 ∧ c + bt_size s c - 4 ≠ x + 8 ∧
      he ≠ x + 4 ∧ he ≠ x + 8 := by
  intro x hx c hc
  obtain ⟨-, hb⟩ := chainSeg_bounds s blks hs he hch
  have hxB := hb x hx
  have hcB := hb c hc
  by_cases hxc : c = x
  · subst hxc
    omega
  · have hd := pairwise_sym2 (chainSeg_ordered s blks hs he hch) x hx c hc
      (fun h => hxc h.symm)
    omega

/-- list_remove unlinks a listed cell, in any of its four positions: the
new list is the old one with the cell erased, only link words of listed
cells can move, and the heap bound fields survive. -/
theorem list_remove_spec (s : State) (lst : List Nat) (x : Nat)
    (hrep : listRep s lst) (hx : x ∈ lst) :
    listRep (list_remove s x) (lst.erase x) ∧
    (∀ y, (∀ a ∈ lst, y ≠ a + 4 ∧ y ≠ a + 8) → (list_remove s x).mem y = s.mem y) ∧
    (list_remove s x).heap_start = s.heap_start ∧
    (list_remove s x).heap_end = s.heap_end ∧
    (list_remove s x).last = s.last := by
  have hnd : lst.Nodup := sep_nodup hrep.1
  obtain ⟨l1, l2, hl⟩ := List.append_of_mem hx
  subst hl
  have hx1 : x ∉ l1 := by
    have hdj := List.disjoint_of_nodup_append hnd
    intro hmem
    exact hdj hmem (List.mem_cons_self x l2)
  have herase : (l1 ++ x :: l2).erase x = l1 ++ l2 := by
    rw [List.erase_append_right _ hx1, List.erase_cons_head]
  rw [herase]
  rcases List.eq_nil_or_concat l1 with rfl | ⟨l10, p, hc⟩
  · rcases l2 with _ | ⟨n, l2'⟩
    · have hA := list_remove_sole_spec s x hrep
      refine ⟨⟨List.Pairwise.nil, by simp, ?_, ?_, trivial⟩, ?_, ?_, ?_, ?_⟩
      · intro _
        constructor
        · rw [hA]
        · rw [hA]
      · intro a rest h
        cases h
      · intro y _
        rw [hA]
      · rw [hA]
      · rw [hA]
      · rw [hA]
    · exact list_remove_head_spec s x n l2' hrep
  · rw [List.concat_eq_append] at hc
    subst hc
    rcases l2 with _ | ⟨n, l2'⟩
    · rw [List.append_nil]
      exact list_remove_tail_spec s l10 p x hrep
    · exact list_remove_mid_spec s l10 p x n l2' hrep

/-- The bit flowing out of a pfSeg run is the freeness of its last block,
or the incoming bit when the run is empty. -/
theorem pfSeg_out (s : State) (l : List Nat) (pv out : Nat) (h : pfSeg s pv l out) :
    out = (match l.getLast? with
      | none => pv
      | some P => if s.mem P % 2 = 0 then 1 else 0) := by
  rcases List.eq_nil_or_concat l with rfl | ⟨u, P, hc⟩
  · exact h.symm
  · rw [List.concat_eq_append] at hc
    subst hc
    obtain ⟨mid, hu, hP, hout⟩ := (pfSeg_concat s u P pv out).mp h
    rw [List.getLast?_concat]
    exact hout.symm

theorem chain'_imp_mem {R S : Nat → Nat → Prop} :
    ∀ (l : List Nat), (∀ x ∈ l, ∀ y ∈ l, R x y → S x y) → l.Chain' R → l.Chain' S := by
  intro l
  induction l with
  | nil => intro _ _; exact List.chain'_nil
  | cons a rest ih =>
    intro hxy h
    rcases rest with _ | ⟨b, rest'⟩
    · exact List.chain'_singleton a
    · rw [List.chain'_cons] at h ⊢
      exact ⟨hxy a (by simp) b (by simp) h.1,
        ih (fun x hx y hy => hxy x (List.mem_cons_of_mem a hx) y
          (List.mem_cons_of_mem a hy)) h.2⟩

/-- Block headers and the epilogue never sit on a footer word, and footers
of distinct blocks are distinct. -/
theorem chain_foot_sep (s : State) (blks : List Nat) (hs he : Nat)
    (hch : chainSeg s hs he blks) :
    ∀ x ∈ blks, ∀ c ∈ blks,
      c ≠ x + bt_size s x - 4 ∧
      (c ≠ x → c + bt_size s c - 4 ≠ x + bt_size s x - 4) ∧
      he ≠ x + bt_size s x - 4 := by
  intro x hx c hc
  obtain ⟨-, hb⟩ := chainSeg_bounds s blks hs he hch
  have hxB := hb x hx
  have hcB := hb c hc
  by_cases hxc : c = x
  · subst hxc
    exact ⟨by omega, fun h => absurd rfl h, by omega⟩
  · have hd := pairwise_sym2 (chainSeg_ordered s blks hs he hch) x hx c hc
      (fun h => hxc h.symm)
    exact ⟨by omega, fun _ => by omega, by omega⟩

/-- Coalesce, case neither neighbor free: the block is pushed onto the free
list and nothing is merged; all the invariants hold afterwards. -/
theorem coalesce_case1 (s : State) (blks lst bl br : List Nat) (B : Nat)
    (hJ : JustFreed s blks lst B) (hblks : blks = bl ++ B :: br)
    (hprev : ∀ P ∈ bl.getLast?, ¬ bt_free s P)
    (hnext : ∀ N ∈ br.head?, ¬ bt_free s N) :
    coalesce s B = (list_add s B, B) ∧ HeapInv (list_add s B) blks (B :: lst) := by
  obtain ⟨hs_base, he_range, layout, epi_used, pf, foot, noadj, rep, bmem, bfree, memEq⟩ := hJ
  subst hblks
  have hbounds := (chainSeg_bounds s _ _ _ layout).2
  have hord := chainSeg_ordered s _ _ _ layout
  have hlink := chain_link_sep s _ _ _ layout
  have hnodup : (bl ++ B :: br).Nodup := by
    refine List.Pairwise.imp_of_mem ?_ hord
    intro a b ha hb hR
    have := (hbounds a ha).2.2.1
    omega
  have hBnotbl : B ∉ bl := fun h =>
    (List.disjoint_of_nodup_append hnodup) h (List.mem_cons_self B br)
  have hBnotbr : B ∉ br := by
    have h2 := (List.nodup_append.mp hnodup).2.1
    exact (List.nodup_cons.mp h2).1
  obtain ⟨m, hcbl, hcon⟩ := (chainSeg_append s bl (B :: br) _ _).mp layout
  obtain ⟨hBm, h16B, hmodB, hctail⟩ := hcon
  subst hBm
  have hBbounds := hbounds B bmem
  obtain ⟨mid, hpfbl, hpfB⟩ := (pfOk_append s bl (B :: br) 0).mp pf
  obtain ⟨hpfBbit, hpfrest⟩ := hpfB
  have hmid0 : mid = 0 := by
    have hout := pfSeg_out s bl 0 mid hpfbl
    rcases hbl : bl.getLast? with _ | P
    · rw [hbl] at hout
      exact hout
    · rw [hbl] at hout
      have hP : ¬ s.mem P % 2 = 0 := hprev P hbl
      have : (if s.mem P % 2 = 0 then 1 else 0) = 0 := if_neg hP
      rw [hout]
      exact this
  have hpc : ¬ bt_get_prevfree s B ≠ 0 := by
    rw [pfbit_get, hpfBbit, hmid0]
    omega
  have hbtnext : bt_next s B = B + bt_size s B := bt_next_eq s B hBbounds.2.1
  have hnfree : ¬ bt_free s (B + bt_size s B) := by
    rcases br with _ | ⟨N, w⟩
    · have hBe : B + bt_size s B = s.heap_end := hctail
      rw [hBe]
      intro h
      unfold bt_free at h
      omega
    · obtain ⟨hN, -, -, -⟩ := hctail
      rw [← hN]
      exact hnext N rfl
  have hnc : ¬ bt_free s (bt_next s B) := by
    rw [hbtnext]
    exact hnfree
  have hA : coalesce s B = (list_add s B, B) := by
    simp only [coalesce]
    rw [if_pos ⟨hpc, hnc⟩]
  have hb1 : BASE < B := by
    have := hBbounds.1
    omega
  have hb2 : B < BASE + 2 ^ 31 := by
    have h1 := hBbounds.2.1
    have h2 := hBbounds.2.2.1
    omega
  have hsep : ∀ a ∈ lst, a + 16 ≤ B ∨ B + 16 ≤ a := by
    intro a ha
    obtain ⟨ha1, -, haB⟩ := (memEq a).mp ha
    have hd := pairwise_sym2 hord a ha1 B bmem haB
    have h16a := (hbounds a ha1).2.2.1
    have h16B' := hBbounds.2.2.1
    omega
  obtain ⟨rep', hfr', hhs', hhe', hlast', hlstart'⟩ := list_add_spec s lst B rep hb1 hb2 hsep
  have hmemeq : ∀ c ∈ bl ++ B :: br, (list_add s B).mem c = s.mem c := by
    intro c hc
    have h1 := hlink B bmem c hc
    refine hfr' c h1.1 h1.2.1 ?_
    intro a ha
    exact (hlink a ((memEq a).mp ha).1 c hc).2.1
  have hfooteq : ∀ c ∈ bl ++ B :: br, bt_free s c →
      (list_add s B).mem (c + bt_size s c - 4) = s.mem (c + bt_size s c - 4) := by
    intro c hc _
    have h1 := hlink B bmem c hc
    refine hfr' _ h1.2.2.1 h1.2.2.2.1 ?_
    intro a ha
    exact (hlink a ((memEq a).mp ha).1 c hc).2.2.2.1
  have hepieq : (list_add s B).mem s.heap_end = s.mem s.heap_end := by
    have h1 := hlink B bmem B bmem
    refine hfr' _ h1.2.2.2.2.1 h1.2.2.2.2.2 ?_
    intro a ha
    have haB := ((memEq a).mp ha).1
    exact (hlink a haB B bmem).2.2.2.2.2
  have hfreeEq : ∀ c ∈ bl ++ B :: br, (bt_free (list_add s B) c ↔ bt_free s c) := by
    intro c hc
    unfold bt_free
    rw [hmemeq c hc]
  have hnadjS : noAdjFree s (bl ++ B :: br) := by
    unfold noAdjFree
    unfold noAdjFreeExcept at noadj
    rw [List.chain'_append] at noadj ⊢
    obtain ⟨hc1, hc2, hglue⟩ := noadj
    refine ⟨?_, ?_, ?_⟩
    · refine chain'_imp_mem bl ?_ hc1
      intro x hx y hy hR
      rcases hR with hxB | hyB | h
      · exact absurd (hxB ▸ hx) hBnotbl
      · exact absurd (hyB ▸ hy) hBnotbl
      · exact h
    · rw [List.chain'_cons'] at hc2 ⊢
      obtain ⟨hhead, htail⟩ := hc2
      refine ⟨?_, ?_⟩
      · intro y hy
        exact fun hboth => hnext y hy hboth.2
      · refine chain'_imp_mem br ?_ htail
        intro x hx y hy hR
        rcases hR with hxB | hyB | h
        · exact absurd (hxB ▸ hx) hBnotbr
        · exact absurd (hyB ▸ hy) hBnotbr
        · exact h
    · intro x hx y hy
      have hyB : y = B := by
        rw [show (B :: br).head? = some B from rfl] at hy
        exact (Option.mem_some_iff.mp hy).symm
      subst hyB
      exact fun hboth => hprev x hx hboth.1
  refine ⟨hA, ?_, ?_, ?_, ?_, ?_, ?_, ?_, rep', ?_⟩
  · rw [hhs']
    exact hs_base
  · rw [hhe']
    exact he_range
  · unfold chainBlocks
    rw [hhs', hhe']
    exact chainSeg_frame s _ _ _ _ layout hmemeq
  · rw [hhe', hepieq]
    exact epi_used
  · exact pfOk_frame s _ hhe' _ 0 pf hmemeq hepieq
  · exact footersOk_frame s _ _ foot hmemeq hfooteq
  · exact noAdjFree_frame s _ _ hnadjS hmemeq
  · intro b
    constructor
    · intro hb
      rcases List.mem_cons.mp hb with rfl | hbl'
      · exact ⟨bmem, (hfreeEq b bmem).mpr bfree⟩
      · obtain ⟨hb1', hb2', -⟩ := (memEq b).mp hbl'
        exact ⟨hb1', (hfreeEq b hb1').mpr hb2'⟩
    · rintro ⟨hb1', hb2'⟩
      have hb2s : bt_free s b := (hfreeEq b hb1').mp hb2'
      by_cases hbB : b = B
      · exact hbB ▸ List.mem_cons_self B lst
      · exact List.mem_cons_of_mem B ((memEq b).mpr ⟨hb1', hb2s, hbB⟩)

theorem bt_size_of_mem (s : State) (bt v : Nat) (h : s.mem bt = v) :
    bt_size s bt = v - v % 4 := by
  unfold bt_size
  rw [h]

set_option maxHeartbeats 1000000 in
/-- Coalesce, case only the right neighbor free: the right neighbor is
unlinked, the two blocks are merged under the left one's address B, B is
pushed onto the free list, and the invariants hold afterwards. -/
theorem coalesce_case2 (s : State) (blks lst bl w : List Nat) (B N : Nat)
    (hJ : JustFreed s blks lst B) (hblks : blks = bl ++ B :: N :: w)
    (hprev : ∀ P ∈ bl.getLast?, ¬ bt_free s P)
    (hNfree : bt_free s N) :
    (coalesce s B).2 = B ∧ bt_free (coalesce s B).1 B ∧
    bt_size (coalesce s B).1 B = bt_size s B + bt_size s N ∧
    HeapInv (coalesce s B).1 (bl ++ B :: w) (B :: lst.erase N) := by
  obtain ⟨hs_base, he_range, layout, epi_used, pf, foot, noadj, rep, bmem, bfree, memEq⟩ := hJ
  subst hblks
  have hbounds := (chainSeg_bounds s _ _ _ layout).2
  have hord := chainSeg_ordered s _ _ _ layout
  have hlink := chain_link_sep s _ _ _ layout
  have hfoots := chain_foot_sep s _ _ _ layout
  have hnodup : (bl ++ B :: N :: w).Nodup := by
    refine List.Pairwise.imp_of_mem ?_ hord
    intro a b ha hb hR
    have := (hbounds a ha).2.2.1
    omega
  have hnodupl : lst.Nodup := sep_nodup rep.1
  have hBnotbl : B ∉ bl := fun h =>
    (List.disjoint_of_nodup_append hnodup) h (List.mem_cons_self B (N :: w))
  have hBnotbr : B ∉ N :: w := by
    have h2 := (List.nodup_append.mp hnodup).2.1
    exact (List.nodup_cons.mp h2).1
  have hNmem : N ∈ bl ++ B :: N :: w := by simp
  have hNnotbl : N ∉ bl := fun h =>
    (List.disjoint_of_nodup_append hnodup) h
      (List.mem_cons_of_mem B (List.mem_cons_self N w))
  have hNw : N ∉ w := by
    have h2 := (List.nodup_append.mp hnodup).2.1
    have h3 := (List.nodup_cons.mp h2).2
    exact (List.nodup_cons.mp h3).1
  obtain ⟨m, hcbl, hcon⟩ := (chainSeg_append s bl (B :: N :: w) _ _).mp layout
  obtain ⟨hBm, h16B, hmodB, hctail⟩ := hcon
  subst hBm
  obtain ⟨hN, h16N', hmodN', hcw⟩ := hctail
  rw [← hN] at hcw
  have hBbounds := hbounds B bmem
  have hNbounds := hbounds N hNmem
  have hblb := (chainSeg_bounds s bl _ _ hcbl).2
  have hwb := (chainSeg_bounds s w _ _ hcw).2
  have hNneB : N ≠ B := by omega
  obtain ⟨mid, hpfbl, hpfB⟩ := (pfOk_append s bl (B :: N :: w) 0).mp pf
  obtain ⟨hpfBbit, hpfrest⟩ := hpfB
  have bfree' : s.mem B % 2 = 0 := bfree
  have hNfree' : s.mem N % 2 = 0 := hNfree
  rw [if_pos bfree'] at hpfrest
  obtain ⟨hpfNbit, hpfw⟩ := hpfrest
  rw [if_pos hNfree'] at hpfw
  have hmid0 : mid = 0 := by
    have hout := pfSeg_out s bl 0 mid hpfbl
    rcases hbl : bl.getLast? with _ | P
    · rw [hbl] at hout
      exact hout
    · rw [hbl] at hout
      have hP : ¬ s.mem P % 2 = 0 := hprev P hbl
      have : (if s.mem P % 2 = 0 then 1 else 0) = 0 := if_neg hP
      rw [hout]
      exact this
  have hpc : ¬ bt_get_prevfree s B ≠ 0 := by
    rw [pfbit_get, hpfBbit, hmid0]
    omega
  have hbtnext : bt_next s B = B + bt_size s B := bt_next_eq s B hBbounds.2.1
  have hncT : bt_free s (bt_next s B) := by
    rw [hbtnext, ← hN]
    exact hNfree
  have hNlst : N ∈ lst := (memEq N).mpr ⟨hNmem, hNfree, hNneB⟩
  obtain ⟨rep1, hfr1, hs1, he1, hl1⟩ := list_remove_spec s lst N rep hNlst
  have hlst_sub : ∀ a ∈ lst, a ∈ bl ++ B :: N :: w := fun a ha => ((memEq a).mp ha).1
  have hhdr1 : ∀ c ∈ bl ++ B :: N :: w, (list_remove s N).mem c = s.mem c := by
    intro c hc
    refine hfr1 c ?_
    intro a ha
    exact ⟨(hlink a (hlst_sub a ha) c hc).1, (hlink a (hlst_sub a ha) c hc).2.1⟩
  have hsz1B : bt_size (list_remove s N) B = bt_size s B := by
    unfold bt_size
    rw [hhdr1 B bmem]
  have hsz1N : bt_size (list_remove s N) N = bt_size s N := by
    unfold bt_size
    rw [hhdr1 N hNmem]
  have hA : coalesce s B =
      (list_add (bt_make (list_remove s N) B (bt_size s B + bt_size s N) FREE) B, B) := by
    simp only [coalesce]
    rw [if_neg (fun h => h.2 hncT), if_pos ⟨hpc, hncT⟩, hbtnext, ← hN, hsz1B, hsz1N]
  have hmod16 : (bt_size s B + bt_size s N) % 16 = 0 := by omega
  have h16sum : 16 ≤ bt_size s B + bt_size s N := by omega
  have hfl4 : FREE < 4 := by norm_num [FREE]
  have hfl2 : FREE % 2 = 0 := by norm_num [FREE]
  have hlesum : B + (bt_size s B + bt_size s N) ≤ (list_remove s N).heap_end := by
    rw [he1]
    omega
  have hm2 := bt_make_free_mem (list_remove s N) B (bt_size s B + bt_size s N) FREE
    hmod16 h16sum hfl4 hfl2 hlesum
  have hsum : B + (bt_size s B + bt_size s N) = N + bt_size s N := by omega
  have hsumlink : ∀ a ∈ lst, N + bt_size s N ≠ a + 4 ∧ N + bt_size s N ≠ a + 8 := by
    intro a ha
    have hamem := hlst_sub a ha
    by_cases haN : a = N
    · subst haN
      constructor <;> omega
    · have hd := pairwise_sym2 hord a hamem N hNmem haN
      have h1 := hbounds a hamem
      constructor <;> omega
  have hkeep1sum : (list_remove s N).mem (N + bt_size s N) = s.mem (N + bt_size s N) :=
    hfr1 _ hsumlink
  have hrep2 : listRep (bt_make (list_remove s N) B (bt_size s B + bt_size s N) FREE)
      (lst.erase N) := by
    refine listRep_frame _ _ _ rep1 (bt_make_list_start _ _ _ _) (bt_make_list_end _ _ _ _) ?_
    intro a ha
    have halst := List.mem_of_mem_erase ha
    have hamem := hlst_sub a halst
    have h1 := hlink a hamem B bmem
    have h2 := hlink a hamem N hNmem
    have h3 := hsumlink a halst
    have h2a := h2.2.2.1
    have h2b := h2.2.2.2.1
    constructor
    · rw [hm2, if_neg (by omega), if_neg (by omega), if_neg (by omega)]
    · rw [hm2, if_neg (by omega), if_neg (by omega), if_neg (by omega)]
  have hb1 : BASE < B := by omega
  have hb2 : B < BASE + 2 ^ 31 := by omega
  have hsepB : ∀ a ∈ lst.erase N, a + 16 ≤ B ∨ B + 16 ≤ a := by
    intro a ha
    have halst := List.mem_of_mem_erase ha
    obtain ⟨hamem, -, haB⟩ := (memEq a).mp halst
    have hd := pairwise_sym2 hord a hamem B bmem haB
    have h1 := hbounds a hamem
    omega
  obtain ⟨rep3, hfr3, hhs3, hhe3, hlast3, hlstart3⟩ :=
    list_add_spec _ (lst.erase N) B hrep2 hb1 hb2 hsepB
  have hhs : (list_add (bt_make (list_remove s N) B (bt_size s B + bt_size s N) FREE)
      B).heap_start = s.heap_start := by
    rw [hhs3, bt_make_heap_start, hs1]
  have hhe : (list_add (bt_make (list_remove s N) B (bt_size s B + bt_size s N) FREE)
      B).heap_end = s.heap_end := by
    rw [hhe3, bt_make_heap_end, he1]
  have htrans : ∀ y, y ≠ N + bt_size s N → y ≠ N + bt_size s N - 4 → y ≠ B →
      y ≠ B + 4 → y ≠ B + 8 → (∀ a ∈ lst, y ≠ a + 4 ∧ y ≠ a + 8) →
      (list_add (bt_make (list_remove s N) B (bt_size s B + bt_size s N) FREE) B).mem y
        = s.mem y := by
    intro y h1 h2 h3 h4 h5 h6
    rw [hfr3 y h4 h5 (fun a ha => (h6 a (List.mem_of_mem_erase ha)).2),
      hm2, if_neg (by omega), if_neg (by omega), if_neg h3, hfr1 y h6]
  have hhdrkeep : ∀ c ∈ bl ++ B :: N :: w, c ≠ B → c ≠ N + bt_size s N →
      (list_add (bt_make (list_remove s N) B (bt_size s B + bt_size s N) FREE) B).mem c
        = s.mem c := by
    intro c hc hcB hcS
    refine htrans c hcS (hfoots N hNmem c hc).1 hcB (hlink B bmem c hc).1
      (hlink B bmem c hc).2.1 ?_
    intro a ha
    exact ⟨(hlink a (hlst_sub a ha) c hc).1, (hlink a (hlst_sub a ha) c hc).2.1⟩
  have hlinkB8 : ∀ a ∈ lst.erase N, B ≠ a + 8 := by
    intro a ha
    exact (hlink a (hlst_sub a (List.mem_of_mem_erase ha)) B bmem).2.1
  have hvalB : (list_add (bt_make (list_remove s N) B (bt_size s B + bt_size s N) FREE)
      B).mem B = bt_size s B + bt_size s N + FREE := by
    rw [hfr3 B (by omega) (by omega) hlinkB8, hm2, if_neg (by omega), if_neg (by omega),
      if_pos rfl]
  have hfree3B : bt_free
      (list_add (bt_make (list_remove s N) B (bt_size s B + bt_size s N) FREE) B) B := by
    unfold bt_free
    rw [hvalB]
    simp only [FREE]
    omega
  have hszB3 : bt_size
      (list_add (bt_make (list_remove s N) B (bt_size s B + bt_size s N) FREE) B) B
      = bt_size s B + bt_size s N := by
    rw [bt_size_of_mem _ _ _ hvalB]
    simp only [FREE]
    omega
  have hvalfootB : (list_add (bt_make (list_remove s N) B (bt_size s B + bt_size s N) FREE)
      B).mem (B + (bt_size s B + bt_size s N) - 4) = bt_size s B + bt_size s N + FREE := by
    have h8 : ∀ a ∈ lst.erase N, B + (bt_size s B + bt_size s N) - 4 ≠ a + 8 := by
      intro a ha
      have h2 := hlink a (hlst_sub a (List.mem_of_mem_erase ha)) N hNmem
      have h2b := h2.2.2.2.1
      omega
    rw [hfr3 _ (by omega) (by omega) h8, hm2, if_neg (by omega), if_pos rfl]
  have hval_sum : (list_add (bt_make (list_remove s N) B (bt_size s B + bt_size s N) FREE)
      B).mem (N + bt_size s N)
      = s.mem (N + bt_size s N) - (s.mem (N + bt_size s N) % 4 - s.mem (N + bt_size s N) % 2)
        + 2 := by
    have h8 : ∀ a ∈ lst.erase N, N + bt_size s N ≠ a + 8 :=
      fun a ha => (hsumlink a (List.mem_of_mem_erase ha)).2
    rw [hfr3 _ (by omega) (by omega) h8, hm2, if_pos (by omega), hsum, hkeep1sum]
  have hfreekeep : ∀ c ∈ bl ++ B :: N :: w, c ≠ B →
      (list_add (bt_make (list_remove s N) B (bt_size s B + bt_size s N) FREE) B).mem c % 2
        = s.mem c % 2 := by
    intro c hc hcB
    by_cases hcS : c = N + bt_size s N
    · subst hcS
      rw [hval_sum]
      omega
    · rw [hhdrkeep c hc hcB hcS]
  have hszkeep : ∀ c ∈ bl ++ B :: N :: w, c ≠ B →
      bt_size (list_add (bt_make (list_remove s N) B (bt_size s B + bt_size s N) FREE) B) c
        = bt_size s c := by
    intro c hc hcB
    by_cases hcS : c = N + bt_size s N
    · subst hcS
      rw [bt_size_of_mem _ _ _ hval_sum,
        show bt_size s (N + bt_size s N)
          = s.mem (N + bt_size s N) - s.mem (N + bt_size s N) % 4 from rfl]
      omega
    · rw [bt_size_of_mem _ _ _ (hhdrkeep c hc hcB hcS),
        show bt_size s c = s.mem c - s.mem c % 4 from rfl]
  have hfreeEq3 : ∀ c ∈ bl ++ B :: N :: w, c ≠ B →
      (bt_free (list_add (bt_make (list_remove s N) B (bt_size s B + bt_size s N) FREE) B) c
        ↔ bt_free s c) := by
    intro c hc hcB
    unfold bt_free
    rw [hfreekeep c hc hcB]
  have hMused : ∀ M' ∈ w.head?, ¬ bt_free s M' := by
    intro M' hM'
    have hc2 := (List.chain'_append.mp noadj).2.1
    have hc3 := (List.chain'_cons'.mp hc2).2
    have hpair := (List.chain'_cons'.mp hc3).1 M' hM'
    rcases hpair with hNB | hMB | hnb
    · exact absurd hNB hNneB
    · have hMw : M' ∈ w := List.mem_of_mem_head? hM'
      exact absurd (List.mem_cons_of_mem N (hMB ▸ hMw)) hBnotbr
    · exact fun hf => hnb ⟨hNfree, hf⟩
  have hlayout : chainSeg
      (list_add (bt_make (list_remove s N) B (bt_size s B + bt_size s N) FREE) B)
      s.heap_start s.heap_end (bl ++ B :: w) := by
    refine (chainSeg_append _ bl (B :: w) _ _).mpr ⟨B, ?_, ?_⟩
    · refine chainSeg_frame s _ bl _ _ hcbl ?_
      intro c hc
      have hcmem : c ∈ bl ++ B :: N :: w := List.mem_append_left _ hc
      have hcB : c ≠ B := fun h => hBnotbl (h ▸ hc)
      have hcb := hblb c hc
      exact hhdrkeep c hcmem hcB (by omega)
    · refine ⟨rfl, ?_, ?_, ?_⟩
      · rw [hszB3]
        omega
      · rw [hszB3]
        omega
      · rw [hszB3, hsum]
        refine chainSeg_frame_size s _ w _ _ hcw ?_
        intro b hb
        have hbmem : b ∈ bl ++ B :: N :: w := by simp [hb]
        have hbB : b ≠ B := fun h => hBnotbr (h ▸ List.mem_cons_of_mem N hb)
        exact hszkeep b hbmem hbB
  have hlinks_he : ∀ a ∈ lst, s.heap_end ≠ a + 4 ∧ s.heap_end ≠ a + 8 := by
    intro a ha
    have h1 := hlink a (hlst_sub a ha) B bmem
    exact ⟨h1.2.2.2.2.1, h1.2.2.2.2.2⟩
  have hepipar : (list_add (bt_make (list_remove s N) B (bt_size s B + bt_size s N) FREE)
      B).mem s.heap_end % 2 = s.mem s.heap_end % 2 := by
    by_cases hw : s.heap_end = N + bt_size s N
    · rw [hw, hval_sum]
      omega
    · rw [htrans s.heap_end hw (by omega) (by omega) (by omega) (by omega) hlinks_he]
  have hpf3 : pfOk
      (list_add (bt_make (list_remove s N) B (bt_size s B + bt_size s N) FREE) B)
      0 (bl ++ B :: w) := by
    refine (pfOk_append _ bl (B :: w) 0).mpr ⟨0, ?_, ?_⟩
    · have hpfbl0 : pfSeg s 0 bl 0 := hmid0 ▸ hpfbl
      refine pfSeg_frame s _ bl 0 0 hpfbl0 ?_
      intro c hc
      have hcmem : c ∈ bl ++ B :: N :: w := List.mem_append_left _ hc
      have hcB : c ≠ B := fun h => hBnotbl (h ▸ hc)
      have hcb := hblb c hc
      exact hhdrkeep c hcmem hcB (by omega)
    · refine ⟨?_, ?_⟩
      · unfold pfbit
        rw [hvalB]
        simp only [FREE]
        omega
      · have hcond : (list_add (bt_make (list_remove s N) B
            (bt_size s B + bt_size s N) FREE) B).mem B % 2 = 0 := by
          rw [hvalB]
          simp only [FREE]
          omega
        rw [if_pos hcond]
        rcases w with _ | ⟨M, w'⟩
        · have hEnd : N + bt_size s N = s.heap_end := hcw
          show pfbit _ _ = 1
          unfold pfbit
          rw [hhe, ← hEnd, hval_sum]
          omega
        · obtain ⟨hM, h16M', hmodM', hcw'⟩ := hcw
          have hMmem : M ∈ bl ++ B :: N :: M :: w' := by simp
          have hMb := hwb M (List.mem_cons_self M w')
          refine ⟨?_, ?_⟩
          · unfold pfbit
            rw [hM, hval_sum]
            omega
          · obtain ⟨hpfMbit, hpfw'⟩ := hpfw
            have hparM : (list_add (bt_make (list_remove s N) B
                (bt_size s B + bt_size s N) FREE) B).mem M % 2 = s.mem M % 2 := by
              rw [hM, hval_sum]
              omega
            rw [hparM]
            refine pfOk_frame s _ hhe w' _ hpfw' ?_ ?_
            · intro c hc
              have hcmem : c ∈ bl ++ B :: N :: M :: w' := by simp [hc]
              have hcB : c ≠ B := fun h =>
                hBnotbr (h ▸ List.mem_cons_of_mem N (List.mem_cons_of_mem M hc))
              have hMw' : M ∉ w' := by
                have h2 := (List.nodup_append.mp hnodup).2.1
                have h3 := (List.nodup_cons.mp h2).2
                have h4 := (List.nodup_cons.mp h3).2
                exact (List.nodup_cons.mp h4).1
              have hcM : c ≠ M := fun h => hMw' (h ▸ hc)
              exact hhdrkeep c hcmem hcB (by omega)
            · exact htrans s.heap_end (by omega) (by omega) (by omega) (by omega)
                (by omega) hlinks_he
  have hfoot3 : footersOk
      (list_add (bt_make (list_remove s N) B (bt_size s B + bt_size s N) FREE) B)
      (bl ++ B :: w) := by
    intro c hc hcf
    rcases List.mem_append.mp hc with hcbl' | hcBw
    · have hcmem : c ∈ bl ++ B :: N :: w := List.mem_append_left _ hcbl'
      have hcB : c ≠ B := fun h => hBnotbl (h ▸ hcbl')
      have hcb := hblb c hcbl'
      have hhd := hhdrkeep c hcmem hcB (by omega)
      have hsz := hszkeep c hcmem hcB
      have hcfree : bt_free s c := by
        unfold bt_free at hcf ⊢
        rw [hhd] at hcf
        exact hcf
      have hlinksf : ∀ a ∈ lst, c + bt_size s c - 4 ≠ a + 4 ∧
          c + bt_size s c - 4 ≠ a + 8 := by
        intro a ha
        have h1 := hlink a (hlst_sub a ha) c hcmem
        exact ⟨h1.2.2.1, h1.2.2.2.1⟩
      have hfaddr := htrans (c + bt_size s c - 4) (by omega) (by omega) (by omega)
        (by omega) (by omega) hlinksf
      rw [hsz, hfaddr, hhd]
      exact foot c hcmem hcfree
    · rcases List.mem_cons.mp hcBw with rfl | hcw'
      · rw [hszB3, hvalfootB, hvalB]
      · have hcmem : c ∈ bl ++ B :: N :: w := by simp [hcw']
        have hcB : c ≠ B := fun h => hBnotbr (h ▸ List.mem_cons_of_mem N hcw')
        have hcb := hwb c hcw'
        by_cases hcS : c = N + bt_size s N
        · exfalso
          rcases w with _ | ⟨M, w'⟩
          · cases hcw'
          · obtain ⟨hM, -, -, -⟩ := hcw
            have hMc : M = c := by omega
            have hfree_s : bt_free s c := by
              unfold bt_free at hcf ⊢
              rw [hfreekeep c hcmem hcB] at hcf
              exact hcf
            exact hMused M rfl (hMc ▸ hfree_s)
        · have hhd := hhdrkeep c hcmem hcB hcS
          have hsz := hszkeep c hcmem hcB
          have hcfree : bt_free s c := by
            unfold bt_free at hcf ⊢
            rw [hhd] at hcf
            exact hcf
          have hlinksf : ∀ a ∈ lst, c + bt_size s c - 4 ≠ a + 4 ∧
              c + bt_size s c - 4 ≠ a + 8 := by
            intro a ha
            have h1 := hlink a (hlst_sub a ha) c hcmem
            exact ⟨h1.2.2.1, h1.2.2.2.1⟩
          have hfaddr := htrans (c + bt_size s c - 4) (by omega) (by omega) (by omega)
            (by omega) (by omega) hlinksf
          rw [hsz, hfaddr, hhd]
          exact foot c hcmem hcfree
  have hnadj3 : noAdjFree
      (list_add (bt_make (list_remove s N) B (bt_size s B + bt_size s N) FREE) B)
      (bl ++ B :: w) := by
    unfold noAdjFree
    rw [List.chain'_append]
    have hold := noadj
    unfold noAdjFreeExcept at hold
    rw [List.chain'_append] at hold
    obtain ⟨hc1, hc2, hglue⟩ := hold
    refine ⟨?_, ?_, ?_⟩
    · refine chain'_imp_mem bl ?_ hc1
      intro x hx y hy hR
      have hxB : x ≠ B := fun h => hBnotbl (h ▸ hx)
      have hyB : y ≠ B := fun h => hBnotbl (h ▸ hy)
      rcases hR with h | h | h
      · exact absurd h hxB
      · exact absurd h hyB
      · intro hb
        exact h ⟨(hfreeEq3 x (List.mem_append_left _ hx) hxB).mp hb.1,
          (hfreeEq3 y (List.mem_append_left _ hy) hyB).mp hb.2⟩
    · rw [List.chain'_cons']
      refine ⟨?_, ?_⟩
      · intro y hy
        intro hb
        have hyw : y ∈ w := List.mem_of_mem_head? hy
        have hymem : y ∈ bl ++ B :: N :: w := by simp [hyw]
        have hyB : y ≠ B := fun h => hBnotbr (h ▸ List.mem_cons_of_mem N hyw)
        exact hMused y hy ((hfreeEq3 y hymem hyB).mp hb.2)
      · have hc3 := (List.chain'_cons'.mp hc2).2
        have hc4 := (List.chain'_cons'.mp hc3).2
        refine chain'_imp_mem w ?_ hc4
        intro x hx y hy hR
        have hxmem : x ∈ bl ++ B :: N :: w := by simp [hx]
        have hymem : y ∈ bl ++ B :: N :: w := by simp [hy]
        have hxB : x ≠ B := fun h => hBnotbr (h ▸ List.mem_cons_of_mem N hx)
        have hyB : y ≠ B := fun h => hBnotbr (h ▸ List.mem_cons_of_mem N hy)
        rcases hR with h | h | h
        · exact absurd h hxB
        · exact absurd h hyB
        · intro hb
          exact h ⟨(hfreeEq3 x hxmem hxB).mp hb.1, (hfreeEq3 y hymem hyB).mp hb.2⟩
    · intro x hx y hy hb
      have hxbl : x ∈ bl := List.mem_of_mem_getLast? hx
      have hxB : x ≠ B := fun h => hBnotbl (h ▸ hxbl)
      exact hprev x hx ((hfreeEq3 x (List.mem_append_left _ hxbl) hxB).mp hb.1)
  have hmemEq3 : ∀ b, b ∈ B :: lst.erase N ↔ b ∈ bl ++ B :: w ∧
      bt_free (list_add (bt_make (list_remove s N) B (bt_size s B + bt_size s N) FREE) B)
        b := by
    intro b
    constructor
    · intro hb
      rcases List.mem_cons.mp hb with rfl | hb'
      · exact ⟨by simp, hfree3B⟩
      · have hblst : b ∈ lst := List.mem_of_mem_erase hb'
        have hbN : b ≠ N := ((List.Nodup.mem_erase_iff hnodupl).mp hb').1
        obtain ⟨hbmem, hbfree, hbB⟩ := (memEq b).mp hblst
        have hbnew : b ∈ bl ++ B :: w := by
          rcases List.mem_append.mp hbmem with h | h
          · exact List.mem_append_left _ h
          · rcases List.mem_cons.mp h with h1 | h1
            · exact absurd h1 hbB
            · rcases List.mem_cons.mp h1 with h2 | h2
              · exact absurd h2 hbN
              · exact List.mem_append_right _ (List.mem_cons_of_mem B h2)
        exact ⟨hbnew, (hfreeEq3 b hbmem hbB).mpr hbfree⟩
    · rintro ⟨hb1', hb2'⟩
      by_cases hbB : b = B
      · exact hbB ▸ List.mem_cons_self _ _
      · have hbold : b ∈ bl ++ B :: N :: w := by
          rcases List.mem_append.mp hb1' with h | h
          · exact List.mem_append_left _ h
          · rcases List.mem_cons.mp h with h1 | h1
            · exact absurd h1 hbB
            · exact List.mem_append_right _
                (List.mem_cons_of_mem B (List.mem_cons_of_mem N h1))
        have hbfree : bt_free s b := (hfreeEq3 b hbold hbB).mp hb2'
        have hbN : b ≠ N := by
          intro h
          subst h
          rcases List.mem_append.mp hb1' with h | h
          · exact hNnotbl h
          · rcases List.mem_cons.mp h with h1 | h1
            · exact hNneB h1
            · exact hNw h1
        exact List.mem_cons_of_mem B ((List.Nodup.mem_erase_iff hnodupl).mpr
          ⟨hbN, (memEq b).mpr ⟨hbold, hbfree, hbB⟩⟩)
  rw [hA]
  refine ⟨rfl, hfree3B, hszB3, ?_, ?_, ?_, ?_, hpf3, hfoot3, hnadj3, rep3, hmemEq3⟩
  · rw [hhs]
    exact hs_base
  · rw [hhe]
    exact he_range
  · unfold chainBlocks
    rw [hhs, hhe]
    exact hlayout
  · rw [hhe, hepipar]
    exact epi_used

end MM
